import Mathlib

/-!
Shallow embedding of the `Logger` class of the js-util repository
(primary variant: padded multi-character prefixes plus `logJSON`).

Side effects are modelled as traces of `Event`s: an `onLogCall` event for
each invocation of the configured `onLog` observer, and a `write` event for
each string handed to the output sink (`consoleFunction`).  Fallible string
operations (`' '.repeat` with a negative count throws a `RangeError` in
JavaScript) are modelled with `Except`.
-/

/-- The log types of the source: `'info' | 'warn' | 'error' | 'debug' | 'success' | 'misc'`. -/
inductive LoggerType where
  | info : LoggerType
  | warn : LoggerType
  | error : LoggerType
  | debug : LoggerType
  | success : LoggerType
  | misc : LoggerType
deriving DecidableEq, Repr

/-- The display name of a log type (the string literal of the union type). -/
def typeName : LoggerType → String
  | .info => "info"
  | .warn => "warn"
  | .error => "error"
  | .debug => "debug"
  | .success => "success"
  | .misc => "misc"

/-- `loggerTypes`: the array of all logger types, in source order. -/
def loggerTypes : List LoggerType := [.info, .warn, .error, .debug, .success, .misc]

/-- `largestLoggerTypeLength = Math.max(...loggerTypes.map((type) => type.length))`. -/
def largestLoggerTypeLength : Nat :=
  (loggerTypes.map (fun t => (typeName t).length)).foldl max 0

/-- The line/escape-sequence selector of the source. -/
inductive LineType where
  | new : LineType
  | current : LineType
  | overlap : LineType
  | doubleNew : LineType
  | space : LineType
  | replace : LineType
deriving DecidableEq, Repr

/-- The `escapeSequence` table inside `Logger.plain`. -/
def escapeSequence : LineType → String
  | .new => "\n"
  | .current => ""
  | .overlap => "\r"
  | .doubleNew => "\n\n"
  | .space => " "
  | .replace => "\x1b[2K\r"

/-- Observable effects of a logger call. -/
inductive Event where
  | onLogCall (type : LoggerType) (message : String) : Event
  | write (s : String) : Event
deriving DecidableEq, Repr

/-- The sink strings of a trace, in order. -/
def writesOf (tr : List Event) : List String :=
  tr.filterMap (fun e => match e with
    | .write s => some s
    | .onLogCall _ _ => none)

/-- The `Logger` configuration: its color flag, whether an `onLog` observer is
configured, and the optional `getPrefixForTypeOverride` function. -/
structure Logger where
  useColor : Bool
  hasOnLog : Bool
  getPrefixForTypeOverride : Option (LoggerType → Option Bool → Option String → String)

/-- `Logger.colorType`: wrap `typeString` in the ANSI color code of `type` plus reset. -/
def Logger.colorType (_l : Logger) (type : LoggerType) (typeString : String) : String :=
  let colors : LoggerType → String := fun t => match t with
    | .info => "\x1b[34m"
    | .warn => "\x1b[33m"
    | .error => "\x1b[31m"
    | .debug => "\x1b[36m"
    | .success => "\x1b[32m"
    | .misc => "\x1b[37m"
  colors type ++ typeString ++ "\x1b[0m"

/-- JavaScript `String.prototype.toUpperCase`, restricted to per-character
uppercasing (the source only uppercases ASCII type names and user overrides). -/
def jsToUpperCase (s : String) : String :=
  String.mk (s.data.map Char.toUpper)

/-- JavaScript `' '.repeat(n)`: throws a `RangeError` when `n` is negative. -/
def spaceRepeat (n : Int) : Except Unit String :=
  if n < 0 then .error () else .ok (String.mk (List.replicate n.toNat ' '))

/-- `Logger.getPrefixForType`: delegates to the override when configured,
otherwise pads the uppercased prefix text to the largest type-name length and
appends `" |"`, colorizing when the effective color flag is set. -/
def Logger.getPrefixForType (l : Logger) (type : LoggerType)
    (useColorOverride : Option Bool) (overridePrefixText : Option String) :
    Except Unit String :=
  match l.getPrefixForTypeOverride with
  | some f => .ok (f type useColorOverride overridePrefixText)
  | none =>
    let prefixText := jsToUpperCase (overridePrefixText.getD (typeName type))
    match spaceRepeat ((largestLoggerTypeLength : Int) - (prefixText.length : Int)) with
    | .error e => .error e
    | .ok pad =>
      let prefixString := prefixText ++ pad ++ " |"
      .ok (if useColorOverride.getD l.useColor then l.colorType type prefixString else prefixString)

/-- `Logger.plain`: write `escapeSequence[lineType] + message` to the sink. -/
def Logger.plain (_l : Logger) (message : String) (lineType : LineType) : List Event :=
  [Event.write (escapeSequence lineType ++ message)]

/-- `Logger.log`: notify `onLog` (when configured) with the raw message, then
write the prefixed message on a new line.  An exception from the prefix
computation aborts before the write. -/
def Logger.log (l : Logger) (type : LoggerType) (message : String) :
    List Event × Except Unit Unit :=
  let pre := if l.hasOnLog then [Event.onLogCall type message] else []
  match l.getPrefixForType type none none with
  | .error e => (pre, .error e)
  | .ok p => (pre ++ l.plain (p ++ " " ++ message) .new, .ok ())

/-! ## The JSON value model and `JSON.stringify` -/

/-- JSON-serializable values handed to `logJSON` (numbers restricted to the
integers, which JavaScript prints in plain decimal). -/
inductive JsonValue where
  | null : JsonValue
  | bool (b : Bool) : JsonValue
  | num (i : Int) : JsonValue
  | str (s : String) : JsonValue
  | arr (xs : List JsonValue) : JsonValue
  | obj (fields : List (String × JsonValue)) : JsonValue
deriving Repr

/-- Decimal digit characters of a natural number, most significant first
(fueled; the fuel is immaterial once it exceeds the number). -/
def natToCharsAux : Nat → Nat → List Char
  | 0, _ => []
  | fuel + 1, n =>
    if n < 10 then [Char.ofNat (48 + n)]
    else natToCharsAux fuel (n / 10) ++ [Char.ofNat (48 + n % 10)]

/-- Decimal digit characters of a natural number, most significant first. -/
def natToChars (n : Nat) : List Char := natToCharsAux (n + 1) n

/-- JavaScript decimal printing of an integer. -/
def intToChars (i : Int) : List Char :=
  if i < 0 then '-' :: natToChars i.natAbs else natToChars i.toNat

/-- Lower-case hexadecimal digit. -/
def hexDigitChar (n : Nat) : Char :=
  if n < 10 then Char.ofNat (48 + n) else Char.ofNat (87 + n)

/-- Four lower-case hexadecimal digits, as in the `\uXXXX` escapes of
`JSON.stringify`. -/
def hex4 (n : Nat) : List Char :=
  [hexDigitChar (n / 4096 % 16), hexDigitChar (n / 256 % 16),
   hexDigitChar (n / 16 % 16), hexDigitChar (n % 16)]

/-- The escape of one character inside a JSON string literal, following the
`QuoteJSONString` algorithm of `JSON.stringify`. -/
def escapeChar (c : Char) : List Char :=
  if c = '"' then ['\\', '"']
  else if c = '\\' then ['\\', '\\']
  else if c = '\x08' then ['\\', 'b']
  else if c = '\x09' then ['\\', 't']
  else if c = '\x0a' then ['\\', 'n']
  else if c = '\x0c' then ['\\', 'f']
  else if c = '\x0d' then ['\\', 'r']
  else if c.toNat < 0x20 then '\\' :: 'u' :: hex4 c.toNat
  else [c]

/-- A JSON string literal with escapes. -/
def quoteJson (s : String) : String :=
  String.mk ('"' :: s.data.flatMap escapeChar ++ ['"'])

/-- Join a list of strings with a separator. -/
def joinSep (sep : String) : List String → String
  | [] => ""
  | [x] => x
  | x :: y :: xs => x ++ sep ++ joinSep sep (y :: xs)

mutual
/-- `JSON.stringify(value, null, space)` where `gap` is the (clamped) indent
string and `indent` the accumulated indentation of the enclosing value. -/
def serializeJSON (gap indent : String) : JsonValue → String
  | .null => "null"
  | .bool b => if b then "true" else "false"
  | .num i => String.mk (intToChars i)
  | .str s => quoteJson s
  | .arr xs =>
    match xs with
    | [] => "[]"
    | x :: rest =>
      let inner := indent ++ gap
      let items := serializeItems gap inner (x :: rest)
      if gap.isEmpty then "[" ++ joinSep "," items ++ "]"
      else "[\n" ++ joinSep ",\n" (items.map (fun it => inner ++ it)) ++ "\n" ++ indent ++ "]"
  | .obj fs =>
    match fs with
    | [] => "\x7b\x7d"
    | f :: rest =>
      let inner := indent ++ gap
      let items := serializeFields gap inner (f :: rest)
      if gap.isEmpty then "\x7b" ++ joinSep "," items ++ "\x7d"
      else "\x7b\n" ++ joinSep ",\n" (items.map (fun it => inner ++ it)) ++ "\n" ++ indent ++ "\x7d"

/-- The serialized elements of an array. -/
def serializeItems (gap inner : String) : List JsonValue → List String
  | [] => []
  | x :: xs => serializeJSON gap inner x :: serializeItems gap inner xs

/-- The serialized `"key": value` members of an object. -/
def serializeFields (gap inner : String) : List (String × JsonValue) → List String
  | [] => []
  | (k, v) :: xs =>
    (quoteJson k ++ (if gap.isEmpty then ":" else ": ") ++ serializeJSON gap inner v)
      :: serializeFields gap inner xs
end

/-- `JSON.stringify(value, null, space)` with a numeric `space` argument
(clamped to at most ten spaces). -/
def jsonStringify (v : JsonValue) (space : Nat) : String :=
  serializeJSON (String.mk (List.replicate (min space 10) ' ')) "" v

/-- `JSON.stringify(value)`: the compact serialization. -/
def stringifyCompact (v : JsonValue) : String :=
  serializeJSON "" "" v

/-! ## The `logJSON` colorizer: the source's regex scans -/

/-- JavaScript `\s` character class. -/
def jsWhitespace (c : Char) : Bool :=
  c = ' ' || c = '\t' || c = '\n' || c = '\r' || c = '\x0b' || c = '\x0c' ||
  c = '\u00a0' || c = '\u1680' || (0x2000 ≤ c.toNat && c.toNat ≤ 0x200a) ||
  c = '\u2028' || c = '\u2029' || c = '\u202f' || c = '\u205f' ||
  c = '\u3000' || c = '\ufeff'

/-- Length matched, after an opening quote, by the tail of the regex
`"([^"\\]*(\\.[^"\\]*)*)"` (the count includes the closing quote; `\\.` does
not match line terminators). -/
def strTailLen : List Char → Option Nat
  | [] => none
  | '"' :: _ => some 1
  | '\\' :: [] => none
  | '\\' :: d :: rest =>
    if d = '\n' || d = '\r' || d = '\u2028' || d = '\u2029' then none
    else (strTailLen rest).map (fun n => n + 2)
  | _ :: rest => (strTailLen rest).map (fun n => n + 1)

/-- Length matched at the current position by `/"([^"\\]*(\\.[^"\\]*)*)"/`. -/
def matchStringAt : List Char → Option Nat
  | '"' :: rest => (strTailLen rest).map (fun n => n + 1)
  | _ => none

/-- Length matched at the current position by `/"([^"\\]*(\\.[^"\\]*)*)"\s*:/`. -/
def matchKeyAt (s : List Char) : Option Nat :=
  match matchStringAt s with
  | none => none
  | some n =>
    let rest := s.drop n
    let w := (rest.takeWhile jsWhitespace).length
    match rest.drop w with
    | ':' :: _ => some (n + w + 1)
    | _ => none

/-- Length matched at the current position by the number pattern
`-?\d+(\.\d+)?([eE][+-]?\d+)?`. -/
def matchNumberAt (s : List Char) : Option Nat :=
  let sgn := if s.head? = some '-' then 1 else 0
  let s1 := s.drop sgn
  let d := (s1.takeWhile Char.isDigit).length
  if d = 0 then none
  else
    let s2 := s1.drop d
    let frac :=
      match s2 with
      | '.' :: t =>
        let fd := (t.takeWhile Char.isDigit).length
        if fd = 0 then 0 else fd + 1
      | _ => 0
    let s3 := s2.drop frac
    let expn :=
      match s3 with
      | e :: t =>
        if e = 'e' || e = 'E' then
          let sl := if t.head? = some '+' || t.head? = some '-' then 1 else 0
          let ed := ((t.drop sl).takeWhile Char.isDigit).length
          if ed = 0 then 0 else 1 + sl + ed
        else 0
      | [] => 0
    some (sgn + d + frac + expn)

/-- Length matched at the current position by `/true|false/`. -/
def matchBoolAt (s : List Char) : Option Nat :=
  if "true".data.isPrefixOf s then some 4
  else if "false".data.isPrefixOf s then some 5
  else none

/-- Length matched at the current position by `/null/`. -/
def matchNullAt (s : List Char) : Option Nat :=
  if "null".data.isPrefixOf s then some 4 else none

/-- All successive matches of a global regex, as found by
`String.prototype.replace` with a `g` flag: leftmost matches, resuming after
each match (advancing one position after an empty match). -/
def scanAllAux (m : List Char → Option Nat) : Nat → List Char → List (List Char)
  | 0, _ => []
  | _ + 1, [] => []
  | fuel + 1, c :: rest =>
    match m (c :: rest) with
    | some n =>
      if n = 0 then [] :: scanAllAux m fuel rest
      else (c :: rest).take n :: scanAllAux m fuel ((c :: rest).drop n)
    | none => scanAllAux m fuel rest

def scanAll (m : List Char → Option Nat) (s : List Char) : List (List Char) :=
  scanAllAux m s.length s

/-- The `colors` record of `logJSON`, as `(color, regex)` pairs in property
order: `key`, `string`, `number`, `boolean`, `null`. -/
def colorEntries : List (String × (List Char → Option Nat)) :=
  [("\x1b[34m", matchKeyAt),
   ("\x1b[32m", matchStringAt),
   ("\x1b[33m", matchNumberAt),
   ("\x1b[33m", matchBoolAt),
   ("\x1b[33m", matchNullAt)]

/-- The `matches` array of `logJSON`: for each `colors` entry in order, every
global match of its regex over the (unmodified) serialized text, paired with
the entry's color. -/
def collectMatches (text : List Char) : List (List Char × String) :=
  colorEntries.foldl
    (fun acc e => acc ++ (scanAll e.2 text).map (fun t => (t, e.1))) []

/-- ECMA-262 `GetSubstitution` for a plain-string search (so with no capture
groups): expand the dollar patterns of the replacement template.  A dollar
followed by a second dollar yields one dollar; followed by an ampersand
yields the matched text; followed by the character 96 (grave accent) yields
the part of the searched string before the match; followed by the character
39 (apostrophe) yields the part after it; any other dollar is literal.
`str` is the string searched and `pos` the match position in it. -/
def getSubstitutionAux (matched str : List Char) (pos : Nat) :
    Nat → List Char → List Char
  | 0, t => t
  | _ + 1, [] => []
  | fuel + 1, c :: rest =>
    if c = '$' then
      match rest with
      | [] => ['$']
      | d :: rest2 =>
        if d = '$' then '$' :: getSubstitutionAux matched str pos fuel rest2
        else if d = '&' then matched ++ getSubstitutionAux matched str pos fuel rest2
        else if d.toNat = 96 then
          str.take pos ++ getSubstitutionAux matched str pos fuel rest2
        else if d.toNat = 39 then
          str.drop (pos + matched.length) ++ getSubstitutionAux matched str pos fuel rest2
        else '$' :: getSubstitutionAux matched str pos fuel (d :: rest2)
    else c :: getSubstitutionAux matched str pos fuel rest

def getSubstitution (matched str : List Char) (pos : Nat) (tmpl : List Char) : List Char :=
  getSubstitutionAux matched str pos tmpl.length tmpl

/-- JavaScript `String.prototype.replaceAll` with a non-empty plain-string
pattern and a string replacement: replace every left-to-right non-overlapping
occurrence with the `GetSubstitution` expansion of the replacement template.
`str` is the full string searched (for the dollar patterns that refer to it)
and `pos` the position of the remaining text in it.  (The call sites only use
non-empty patterns; an empty pattern leaves the text unchanged here.) -/
def replaceAllAux (pat tmpl str : List Char) : Nat → Nat → List Char → List Char
  | 0, _, s => s
  | _ + 1, _, [] => []
  | fuel + 1, pos, c :: rest =>
    if pat ≠ [] ∧ pat.isPrefixOf (c :: rest) then
      getSubstitution pat str pos tmpl ++
        replaceAllAux pat tmpl str fuel (pos + pat.length) ((c :: rest).drop pat.length)
    else c :: replaceAllAux pat tmpl str fuel (pos + 1) rest

def replaceAllL (pat tmpl s : List Char) : List Char :=
  replaceAllAux pat tmpl s s.length 0 s

/-- `replaceAll` on strings. -/
def replaceAllStr (s pat rep : String) : String :=
  String.mk (replaceAllL pat.data rep.data s.data)

/-- The color pass of `logJSON`: collect the matches of all five regexes over
the serialized text, then, for each match in order, `replaceAll` every
occurrence of its literal text with the replacement string
color + text + reset (whose dollar patterns `replaceAll` expands). -/
def colorizeJsonText (jsonText : String) : String :=
  String.mk
    ((collectMatches jsonText.data).foldl
      (fun t m => replaceAllL m.1 (m.2.data ++ m.1 ++ "\x1b[0m".data) t)
      jsonText.data)

/-- `Logger.logJSON`: notify `onLog` with the compact serialization, pretty
print, colorize when `useColor` is set, and write the result with the type
prefix, re-prefixing every embedded newline with the empty-text prefix. -/
def Logger.logJSON (l : Logger) (type : LoggerType) (objectOrArray : JsonValue)
    (indentLength : Nat) : List Event × Except Unit Unit :=
  let pre := if l.hasOnLog then [Event.onLogCall type (stringifyCompact objectOrArray)] else []
  let jsonText := jsonStringify objectOrArray indentLength
  let jsonText := if l.useColor then colorizeJsonText jsonText else jsonText
  match l.getPrefixForType type none none with
  | .error e => (pre, .error e)
  | .ok p =>
    match l.getPrefixForType type none (some "") with
    | .error e => (pre, .error e)
    | .ok q =>
      (pre ++ l.plain (p ++ " " ++ replaceAllStr jsonText "\n" ("\n" ++ q ++ " ")) .new, .ok ())

/-! ## Spec-side definitions -/

/-- The escape-sequence table as written in the spec (section 6). -/
def specLineSeq : LineType → String
  | .new => "\n"
  | .current => ""
  | .overlap => "\r"
  | .doubleNew => "\n\n"
  | .space => " "
  | .replace => "\u001b[2K\r"

/-- Verbatim replacement of every occurrence of a non-empty pattern: the
replacement text is inserted literally, with no dollar substitution.  This is
the claim's reading of the color pass, to be compared with `replaceAllL`. -/
def replaceAllLitAux (pat rep : List Char) : Nat → List Char → List Char
  | 0, s => s
  | _ + 1, [] => []
  | fuel + 1, c :: rest =>
    if pat ≠ [] ∧ pat.isPrefixOf (c :: rest) then
      rep ++ replaceAllLitAux pat rep fuel ((c :: rest).drop pat.length)
    else c :: replaceAllLitAux pat rep fuel rest

def replaceAllLit (pat rep s : List Char) : List Char := replaceAllLitAux pat rep s.length s

/-- The recorded matches as the spec describes them: scan the serialized text
with the pattern matches in the fixed priority order object keys, string
values, numbers, booleans, null, remembering each match's literal text and its
associated color (key → blue, string → green, number/boolean/null → yellow). -/
def specRecordedMatches (text : List Char) : List (List Char × String) :=
  (scanAll matchKeyAt text).map (fun t => (t, "\x1b[34m")) ++
  (scanAll matchStringAt text).map (fun t => (t, "\x1b[32m")) ++
  (scanAll matchNumberAt text).map (fun t => (t, "\x1b[33m")) ++
  (scanAll matchBoolAt text).map (fun t => (t, "\x1b[33m")) ++
  (scanAll matchNullAt text).map (fun t => (t, "\x1b[33m"))

/-- The colorization algorithm as the claim describes it: for every remembered
match, in order, replace all occurrences of its literal text in the document
with color + text + reset, the replacement inserted verbatim. -/
def colorizeSpecText (text : String) : String :=
  String.mk
    ((specRecordedMatches text.data).foldl
      (fun t m => replaceAllLit m.1 (m.2.data ++ m.1 ++ "\x1b[0m".data) t)
      text.data)

/-- The colorization algorithm as amended: for every remembered match, in
order, `replaceAll` all occurrences of its literal text in the document with
the replacement string color + text + reset, whose dollar patterns
`replaceAll` expands. -/
def colorizeSpecTextJS (text : String) : String :=
  String.mk
    ((specRecordedMatches text.data).foldl
      (fun t m => replaceAllL m.1 (m.2.data ++ m.1 ++ "\x1b[0m".data) t)
      text.data)

/-- The un-colorized, un-overridden prefix string for a given (already
uppercased) prefix text: padded to the largest type-name length, then `" |"`. -/
def plainPrefixOf (txt : String) : String :=
  txt ++ String.mk (List.replicate (largestLoggerTypeLength - txt.length) ' ') ++ " |"

/-- `nlOk p s`: every newline in `s` is immediately followed by `p`. -/
def nlOk (p : List Char) : List Char → Bool
  | [] => true
  | c :: rest => (if c = '\n' then p.isPrefixOf rest else true) && nlOk p rest

/-- Undo the injection of a continuation segment `p` after every newline
(fueled; the fuel is immaterial once it reaches the input length). -/
def stripContAux (p : List Char) : Nat → List Char → List Char
  | 0, s => s
  | _ + 1, [] => []
  | fuel + 1, c :: rest =>
    if c = '\n' ∧ p.isPrefixOf rest then '\n' :: stripContAux p fuel (rest.drop p.length)
    else c :: stripContAux p fuel rest

/-- Undo the injection of a continuation segment `p` after every newline. -/
def stripCont (p s : List Char) : List Char := stripContAux p s.length s

/-- Remove the injected prefix segments from an (un-colorized) `logJSON` sink
string: drop the leading newline, type prefix and space, then strip the
empty-text continuation prefix plus space after every remaining newline. -/
def stripLogOutput (type : LoggerType) (s : String) : String :=
  String.mk
    (stripCont (plainPrefixOf "" ++ " ").data
      (s.data.drop (("\n" ++ plainPrefixOf (jsToUpperCase (typeName type)) ++ " ").length)))

/-- Number of ANSI escape characters in a string. -/
def escCount (s : String) : Nat := s.data.count '\x1b'

/-! ## A JSON parser -/

/-- JSON insignificant whitespace. -/
def jsonWs (c : Char) : Bool :=
  c = ' ' || c = '\t' || c = '\n' || c = '\r'

/-- Skip insignificant whitespace. -/
def skipWs (s : List Char) : List Char := s.dropWhile jsonWs

/-- Value of a hexadecimal digit. -/
def parseHexDigit (c : Char) : Option Nat :=
  if '0' ≤ c ∧ c ≤ '9' then some (c.toNat - 48)
  else if 'a' ≤ c ∧ c ≤ 'f' then some (c.toNat - 87)
  else if 'A' ≤ c ∧ c ≤ 'F' then some (c.toNat - 55)
  else none

/-- Decode a simple (single-character) JSON string escape. -/
def decodeEscape (e : Char) : Option Char :=
  if e = '"' then some '"'
  else if e = '\\' then some '\\'
  else if e = '/' then some '/'
  else if e = 'b' then some '\x08'
  else if e = 'f' then some '\x0c'
  else if e = 'n' then some '\n'
  else if e = 'r' then some '\r'
  else if e = 't' then some '\t'
  else none

/-- Parse the body of a JSON string literal after the opening quote, up to and
including the closing quote; returns the decoded characters and the rest. -/
def parseStringBody : List Char → Option (List Char × List Char)
  | [] => none
  | c :: rest =>
    if c = '"' then some ([], rest)
    else if c = '\\' then
      match rest with
      | [] => none
      | e :: rest2 =>
        if e = 'u' then
          match rest2 with
          | a :: b :: c2 :: d :: rest3 =>
            match parseHexDigit a, parseHexDigit b, parseHexDigit c2, parseHexDigit d with
            | some x, some y, some z, some w =>
              (parseStringBody rest3).map
                (fun r => (Char.ofNat (x * 4096 + y * 256 + z * 16 + w) :: r.1, r.2))
            | _, _, _, _ => none
          | _ => none
        else
          match decodeEscape e with
          | some ch => (parseStringBody rest2).map (fun r => (ch :: r.1, r.2))
          | none => none
    else (parseStringBody rest).map (fun r => (c :: r.1, r.2))

/-- Parse a nonempty run of decimal digits. -/
def parseNatDigits (s : List Char) : Option (Nat × List Char) :=
  let ds := s.takeWhile Char.isDigit
  if ds.isEmpty then none
  else some (ds.foldl (fun a c => a * 10 + (c.toNat - 48)) 0, s.drop ds.length)

/-- Parse an integer JSON number (the number domain of the value model). -/
def parseNumber (s : List Char) : Option (Int × List Char) :=
  if s.head? = some '-' then
    (parseNatDigits s.tail).map (fun r => (-(r.1 : Int), r.2))
  else
    (parseNatDigits s).map (fun r => ((r.1 : Int), r.2))

mutual
/-- Parse one JSON value (fueled recursive descent). -/
def parseValue : Nat → List Char → Option (JsonValue × List Char)
  | 0, _ => none
  | Nat.succ fuel, s =>
    match skipWs s with
    | [] => none
    | c :: rest =>
      if c = 'n' then
        if ['u', 'l', 'l'].isPrefixOf rest then some (.null, rest.drop 3) else none
      else if c = 't' then
        if ['r', 'u', 'e'].isPrefixOf rest then some (.bool true, rest.drop 3) else none
      else if c = 'f' then
        if ['a', 'l', 's', 'e'].isPrefixOf rest then some (.bool false, rest.drop 4) else none
      else if c = '"' then
        (parseStringBody rest).map (fun r => (.str (String.mk r.1), r.2))
      else if c = '[' then
        let r1 := skipWs rest
        if r1.head? = some ']' then some (.arr [], r1.tail)
        else (parseElems fuel r1).map (fun r => (.arr r.1, r.2))
      else if c = '\x7b' then
        let r1 := skipWs rest
        if r1.head? = some '\x7d' then some (.obj [], r1.tail)
        else (parseMembers fuel r1).map (fun r => (.obj r.1, r.2))
      else
        (parseNumber (c :: rest)).map (fun r => (.num r.1, r.2))

/-- Parse the elements of a nonempty array, up to and including `]`. -/
def parseElems : Nat → List Char → Option (List JsonValue × List Char)
  | 0, _ => none
  | Nat.succ fuel, s =>
    match parseValue fuel s with
    | none => none
    | some (v, r) =>
      match skipWs r with
      | ',' :: r2 => (parseElems fuel r2).map (fun t => (v :: t.1, t.2))
      | ']' :: r2 => some ([v], r2)
      | _ => none

/-- Parse the members of a nonempty object, up to and including the closing
brace. -/
def parseMembers : Nat → List Char → Option (List (String × JsonValue) × List Char)
  | 0, _ => none
  | Nat.succ fuel, s =>
    match skipWs s with
    | '"' :: r =>
      match parseStringBody r with
      | none => none
      | some (k, r1) =>
        match skipWs r1 with
        | ':' :: r2 =>
          match parseValue fuel r2 with
          | none => none
          | some (v, r3) =>
            match skipWs r3 with
            | ',' :: r4 => (parseMembers fuel r4).map (fun t => ((String.mk k, v) :: t.1, t.2))
            | '\x7d' :: r4 => some ([(String.mk k, v)], r4)
            | _ => none
        | _ => none
    | _ => none
end

/-- Parse a whole string as JSON. -/
def parseJson (s : String) : Option JsonValue :=
  match parseValue (s.length + 1) s.data with
  | some (v, r) => if skipWs r = [] then some v else none
  | none => none

/-! ## Basic lemmas -/

theorem largest_eq : largestLoggerTypeLength = 7 := by decide

theorem typeNameUpper_le (t : LoggerType) :
    (jsToUpperCase (typeName t)).length ≤ largestLoggerTypeLength := by
  cases t <;> decide

theorem data_inj {s t : String} (h : s.data = t.data) : s = t := by
  cases s; cases t; cases h; rfl

theorem replaceAllLitAux_singleton (a : Char) (rep : List Char) (fuel : Nat) :
    ∀ s : List Char, s.length ≤ fuel →
      replaceAllLitAux [a] rep fuel s = s.flatMap (fun c => if c = a then rep else [c]) := by
  induction fuel with
  | zero =>
    intro s hs
    rw [List.eq_nil_of_length_eq_zero (Nat.le_zero.mp hs)]
    rfl
  | succ fuel ih =>
    intro s hs
    cases s with
    | nil => rfl
    | cons c rest =>
      have hr : rest.length ≤ fuel := by simp at hs; omega
      by_cases h : c = a
      · subst h
        rw [replaceAllLitAux]
        simp [List.isPrefixOf, ih rest hr]
      · have hb : (a == c) = false := beq_eq_false_iff_ne.mpr (fun he => h he.symm)
        rw [replaceAllLitAux]
        simp [List.isPrefixOf, hb, h, ih rest hr]

theorem replaceAllLit_singleton (a : Char) (rep : List Char) (s : List Char) :
    replaceAllLit [a] rep s = s.flatMap (fun c => if c = a then rep else [c]) :=
  replaceAllLitAux_singleton a rep s.length s (Nat.le_refl _)

theorem getSubstitutionAux_no_dollar (m str : List Char) (pos : Nat) :
    ∀ (fuel : Nat) (tmpl : List Char), '$' ∉ tmpl →
      getSubstitutionAux m str pos fuel tmpl = tmpl := by
  intro fuel
  induction fuel with
  | zero => intro tmpl _; rfl
  | succ fuel ih =>
    intro tmpl h
    cases tmpl with
    | nil => rfl
    | cons c rest =>
      have hc : ¬ c = '$' := fun he => h (he ▸ List.mem_cons_self c rest)
      have hr : '$' ∉ rest := fun hm => h (List.mem_cons_of_mem c hm)
      cases rest with
      | nil =>
        show (if c = '$' then ['$'] else c :: getSubstitutionAux m str pos fuel []) = [c]
        rw [if_neg hc]
        cases fuel <;> rfl
      | cons d rest2 =>
        show (if c = '$' then
            (if d = '$' then '$' :: getSubstitutionAux m str pos fuel rest2
             else if d = '&' then m ++ getSubstitutionAux m str pos fuel rest2
             else if d.toNat = 96 then
               str.take pos ++ getSubstitutionAux m str pos fuel rest2
             else if d.toNat = 39 then
               str.drop (pos + m.length) ++ getSubstitutionAux m str pos fuel rest2
             else '$' :: getSubstitutionAux m str pos fuel (d :: rest2))
          else c :: getSubstitutionAux m str pos fuel (d :: rest2)) = c :: d :: rest2
        rw [if_neg hc, ih (d :: rest2) hr]

theorem getSubstitution_no_dollar (m str : List Char) (pos : Nat) (tmpl : List Char)
    (h : '$' ∉ tmpl) : getSubstitution m str pos tmpl = tmpl :=
  getSubstitutionAux_no_dollar m str pos tmpl.length tmpl h

/-- A replacement template with no dollar is inserted verbatim: `replaceAll`
then agrees with literal replacement. -/
theorem replaceAllAux_lit (pat tmpl str : List Char) (h : '$' ∉ tmpl) :
    ∀ (fuel pos : Nat) (s : List Char),
      replaceAllAux pat tmpl str fuel pos s = replaceAllLitAux pat tmpl fuel s := by
  intro fuel
  induction fuel with
  | zero => intro pos s; rfl
  | succ fuel ih =>
    intro pos s
    cases s with
    | nil => rfl
    | cons c rest =>
      rw [replaceAllAux, replaceAllLitAux]
      by_cases hp : pat ≠ [] ∧ pat.isPrefixOf (c :: rest)
      · rw [if_pos hp, if_pos hp, getSubstitution_no_dollar pat str pos tmpl h, ih]
      · rw [if_neg hp, if_neg hp, ih]

theorem replaceAllL_lit (pat tmpl s : List Char) (h : '$' ∉ tmpl) :
    replaceAllL pat tmpl s = replaceAllLit pat tmpl s :=
  replaceAllAux_lit pat tmpl s h s.length 0 s

theorem nlOk_append_of_no_nl (p u w : List Char) (hu : ∀ c ∈ u, ¬ c = '\n') :
    nlOk p (u ++ w) = nlOk p w := by
  induction u with
  | nil => rfl
  | cons c cs ih =>
    have hc : ¬ c = '\n' := hu c (List.mem_cons_self c cs)
    rw [List.cons_append, nlOk]
    simp [hc, ih (fun d hd => hu d (List.mem_cons_of_mem c hd))]

theorem nlOk_flatMap (p t : List Char) (hp : p.isPrefixOf t)
    (ht : ∀ c ∈ t, ¬ c = '\n') (s : List Char) :
    nlOk p (s.flatMap (fun c => if c = '\n' then '\n' :: t else [c])) = true := by
  induction s with
  | nil => rfl
  | cons c rest ih =>
    rw [List.flatMap_cons]
    by_cases h : c = '\n'
    · subst h
      simp only [if_pos rfl, List.cons_append, nlOk]
      have h1 : p.isPrefixOf (t ++ rest.flatMap (fun c => if c = '\n' then '\n' :: t else [c])) := by
        rw [List.isPrefixOf_iff_prefix] at hp ⊢
        exact hp.trans (List.prefix_append _ _)
      simp [h1, nlOk_append_of_no_nl p t _ ht, ih]
    · simp only [if_neg h, List.singleton_append, nlOk]
      simp [h, ih]

theorem stripContAux_flatMap (t : List Char) (fuel : Nat) :
    ∀ s : List Char,
      (s.flatMap (fun c => if c = '\n' then '\n' :: t else [c])).length ≤ fuel →
      stripContAux t fuel (s.flatMap (fun c => if c = '\n' then '\n' :: t else [c])) = s := by
  induction fuel with
  | zero =>
    intro s hs
    rw [List.eq_nil_of_length_eq_zero (Nat.le_zero.mp hs)]
    cases s with
    | nil => rfl
    | cons c rest =>
      exfalso
      rw [List.flatMap_cons, List.length_append] at hs
      have h1 : 1 ≤ (if c = '\n' then '\n' :: t else [c]).length := by
        by_cases h : c = '\n' <;> simp [h]
      omega
  | succ fuel ih =>
    intro s hs
    cases s with
    | nil => rfl
    | cons c rest =>
      rw [List.flatMap_cons] at hs ⊢
      by_cases h : c = '\n'
      · subst h
        simp only [eq_self_iff_true, if_true, List.cons_append]
        rw [stripContAux]
        have h1 : t.isPrefixOf
            (t ++ rest.flatMap (fun c => if c = '\n' then '\n' :: t else [c])) := by
          rw [List.isPrefixOf_iff_prefix]
          exact List.prefix_append _ _
        have h2 : (rest.flatMap (fun c => if c = '\n' then '\n' :: t else [c])).length
            ≤ fuel := by
          simp only [eq_self_iff_true, if_true, List.cons_append, List.length_cons,
            List.length_append] at hs
          omega
        simp [h1, List.drop_left, ih _ h2]
      · simp only [if_neg h, List.singleton_append]
        rw [stripContAux]
        have h2 : (rest.flatMap (fun c => if c = '\n' then '\n' :: t else [c])).length
            ≤ fuel := by
          simp only [if_neg h, List.singleton_append, List.length_cons] at hs
          omega
        simp [h, ih _ h2]

theorem stripCont_flatMap (t : List Char) (s : List Char) :
    stripCont t (s.flatMap (fun c => if c = '\n' then '\n' :: t else [c])) = s :=
  stripContAux_flatMap t _ s (Nat.le_refl _)

theorem count_flatMap_nl (t : List Char) (x : Char) (hx : ¬ x = '\n')
    (ht : (t.count x) = 0) (s : List Char) :
    (s.flatMap (fun c => if c = '\n' then '\n' :: t else [c])).count x = s.count x := by
  induction s with
  | nil => rfl
  | cons c rest ih =>
    rw [List.flatMap_cons, List.count_append, ih]
    by_cases h : c = '\n'
    · subst h
      have hnx : ('\n' == x) = false := beq_eq_false_iff_ne.mpr (fun he => hx he.symm)
      simp [List.count_cons, ht, hnx]
    · rw [if_neg h]
      simp [List.count_cons]
      omega

/-! ## Prefix and trace characterization -/

theorem getPrefix_ok (l : Logger) (t : LoggerType) (co : Option Bool) (ot : Option String)
    (hov : l.getPrefixForTypeOverride = none)
    (hlen : (jsToUpperCase (ot.getD (typeName t))).length ≤ largestLoggerTypeLength) :
    l.getPrefixForType t co ot =
      .ok (if co.getD l.useColor
           then l.colorType t (plainPrefixOf (jsToUpperCase (ot.getD (typeName t))))
           else plainPrefixOf (jsToUpperCase (ot.getD (typeName t)))) := by
  have h1 : ¬ ((largestLoggerTypeLength : Int) -
      ((jsToUpperCase (ot.getD (typeName t))).length : Int) < 0) := by omega
  have h2 : ((largestLoggerTypeLength : Int) -
        ((jsToUpperCase (ot.getD (typeName t))).length : Int)).toNat
      = largestLoggerTypeLength - (jsToUpperCase (ot.getD (typeName t))).length := by omega
  simp only [Logger.getPrefixForType, hov, spaceRepeat, if_neg h1, h2, plainPrefixOf]

theorem getPrefix_error (l : Logger) (t : LoggerType) (co : Option Bool) (ot : Option String)
    (hov : l.getPrefixForTypeOverride = none)
    (hlen : largestLoggerTypeLength < (jsToUpperCase (ot.getD (typeName t))).length) :
    l.getPrefixForType t co ot = .error () := by
  have h1 : (largestLoggerTypeLength : Int) -
      ((jsToUpperCase (ot.getD (typeName t))).length : Int) < 0 := by omega
  simp only [Logger.getPrefixForType, hov, spaceRepeat, if_pos h1]

theorem getPrefix_default_isOk (l : Logger) (t : LoggerType) (co : Option Bool) :
    ∃ p, l.getPrefixForType t co none = .ok p := by
  cases hov : l.getPrefixForTypeOverride with
  | some f => exact ⟨f t co none, by unfold Logger.getPrefixForType; rw [hov]⟩
  | none => exact ⟨_, getPrefix_ok l t co none hov (typeNameUpper_le t)⟩

theorem getPrefix_empty_isOk (l : Logger) (t : LoggerType) (co : Option Bool) :
    ∃ p, l.getPrefixForType t co (some "") = .ok p := by
  cases hov : l.getPrefixForTypeOverride with
  | some f => exact ⟨f t co (some ""), by unfold Logger.getPrefixForType; rw [hov]⟩
  | none =>
    refine ⟨_, getPrefix_ok l t co (some "") hov ?_⟩
    show (jsToUpperCase "").length ≤ largestLoggerTypeLength
    decide

theorem log_eq (l : Logger) (t : LoggerType) (msg p : String)
    (hp : l.getPrefixForType t none none = .ok p) :
    l.log t msg = ((if l.hasOnLog then [Event.onLogCall t msg] else []) ++
      [Event.write ("\n" ++ (p ++ " " ++ msg))], .ok ()) := by
  unfold Logger.log
  rw [hp]
  rfl

theorem logJSON_eq (l : Logger) (t : LoggerType) (v : JsonValue) (n : Nat) (p q : String)
    (hp : l.getPrefixForType t none none = .ok p)
    (hq : l.getPrefixForType t none (some "") = .ok q) :
    l.logJSON t v n =
      ((if l.hasOnLog then [Event.onLogCall t (stringifyCompact v)] else []) ++
        [Event.write ("\n" ++ (p ++ " " ++
          replaceAllStr (if l.useColor then colorizeJsonText (jsonStringify v n)
                         else jsonStringify v n)
            "\n" ("\n" ++ q ++ " ")))], .ok ()) := by
  unfold Logger.logJSON
  rw [hp, hq]
  rfl

theorem writesOf_shape (b : Bool) (t : LoggerType) (msg s : String) :
    writesOf ((if b then [Event.onLogCall t msg] else []) ++ [Event.write s]) = [s] := by
  cases b <;> rfl

theorem prefix_length (l : Logger) (t : LoggerType) (eff : Bool) :
    ((if eff then l.colorType t (plainPrefixOf (jsToUpperCase (typeName t)))
      else plainPrefixOf (jsToUpperCase (typeName t))).length) = if eff then 18 else 9 := by
  cases eff <;> cases t <;> rfl

/-! ## Claims -/

/-- C1 (counterexample): `new Logger(false, captureSink).log('error', 'disk full')`
does not hand the sink the claimed literal `"\nERROR | disk full"`: the error
label is padded to the largest type-name length, so three spaces separate the
label from the separator. -/
theorem c1_counterexample :
    ¬ writesOf ((Logger.mk false false none).log .error "disk full").1 =
      ["\nERROR | disk full"] := by
  decide

/-- C1 (amended): `new Logger(false, captureSink).log('error', 'disk full')`
hands the sink exactly `"\nERROR   | disk full"`: a newline, the uppercased
error label padded with spaces to the width computed from the fixed LoggerType
set (seven), the separator `" |"`, a space, and the message. -/
theorem c1_padded_scenario :
    writesOf ((Logger.mk false false none).log .error "disk full").1 =
      ["\nERROR   | disk full"] := by
  decide

/-- C4: on a Logger with no `getPrefixForTypeOverride` and no prefix-text
override, the prefixes of any two LoggerType values have identical length
under the same effective color setting. -/
theorem c4_prefix_alignment (l : Logger) (co : Option Bool) (t1 t2 : LoggerType)
    (s1 s2 : String)
    (hov : l.getPrefixForTypeOverride = none)
    (h1 : l.getPrefixForType t1 co none = .ok s1)
    (h2 : l.getPrefixForType t2 co none = .ok s2) :
    s1.length = s2.length := by
  rw [getPrefix_ok l t1 co none hov (typeNameUpper_le t1)] at h1
  rw [getPrefix_ok l t2 co none hov (typeNameUpper_le t2)] at h2
  cases h1
  cases h2
  simp only [Option.getD_none]
  rw [prefix_length l t1 (co.getD l.useColor), prefix_length l t2 (co.getD l.useColor)]

/-- C4 witness: concrete alignment of the `info` and `success` prefixes on an
uncolored logger. -/
theorem c4_prefix_alignment_witness :
    (Logger.mk false false none).getPrefixForTypeOverride = none ∧
    ("INFO    |" : String).length = ("SUCCESS |" : String).length :=
  ⟨rfl, c4_prefix_alignment (Logger.mk false false none) none .info .success
    "INFO    |" "SUCCESS |" rfl rfl rfl⟩

/-- C5: `plain(message, lineType)` hands the sink exactly the concatenation
of the spec's line-mode escape sequence and the message (table: new ↦ `"\n"`,
current ↦ `""`, overlap ↦ `"\r"`, doubleNew ↦ `"\n\n"`, space ↦ `" "`,
replace ↦ `"\u001b[2K\r"`); in particular `plain('x', overlap)` writes
exactly `"\rx"`. -/
theorem c5_plain_table :
    (∀ (l : Logger) (message : String) (lineType : LineType),
      l.plain message lineType = [Event.write (specLineSeq lineType ++ message)]) ∧
    (∀ l : Logger, l.plain "x" .overlap = [Event.write "\rx"]) := by
  constructor
  · intro l message lineType
    cases lineType <;> rfl
  · intro l
    rfl

/-- C6: with an `onLog` callback configured, `log(type, message)` invokes
`onLog` exactly once, with the raw unmodified message, before the single sink
write. -/
theorem c6_onLog_order (l : Logger) (t : LoggerType) (msg : String)
    (h : l.hasOnLog = true) :
    ∃ s, (l.log t msg).1 = [Event.onLogCall t msg, Event.write s] := by
  obtain ⟨p, hp⟩ := getPrefix_default_isOk l t none
  refine ⟨"\n" ++ (p ++ " " ++ msg), ?_⟩
  rw [show (l.log t msg).1 = ((if l.hasOnLog then [Event.onLogCall t msg] else []) ++
      [Event.write ("\n" ++ (p ++ " " ++ msg))]) from congrArg Prod.fst (log_eq l t msg p hp)]
  rw [h]
  rfl

/-- C6 witness: the behavior at a concrete logger and message. -/
theorem c6_onLog_order_witness :
    (Logger.mk false true none).hasOnLog = true ∧
    ∃ s, ((Logger.mk false true none).log .info "hi").1 =
      [Event.onLogCall .info "hi", Event.write s] :=
  ⟨rfl, c6_onLog_order (Logger.mk false true none) .info "hi" rfl⟩

/-- C7: with an `onLog` callback configured, `logJSON(type, value)` invokes
`onLog` exactly once, with the compact (non-indented, non-colorized) JSON
serialization of the value, before the single sink write. -/
theorem c7_onLog_compact (l : Logger) (t : LoggerType) (v : JsonValue) (n : Nat)
    (h : l.hasOnLog = true) :
    ∃ s, (l.logJSON t v n).1 =
      [Event.onLogCall t (stringifyCompact v), Event.write s] := by
  obtain ⟨p, hp⟩ := getPrefix_default_isOk l t none
  obtain ⟨q, hq⟩ := getPrefix_empty_isOk l t none
  refine ⟨"\n" ++ (p ++ " " ++
    replaceAllStr (if l.useColor then colorizeJsonText (jsonStringify v n)
                   else jsonStringify v n) "\n" ("\n" ++ q ++ " ")), ?_⟩
  rw [show (l.logJSON t v n).1 =
      ((if l.hasOnLog then [Event.onLogCall t (stringifyCompact v)] else []) ++
        [Event.write ("\n" ++ (p ++ " " ++
          replaceAllStr (if l.useColor then colorizeJsonText (jsonStringify v n)
                         else jsonStringify v n) "\n" ("\n" ++ q ++ " ")))])
    from congrArg Prod.fst (logJSON_eq l t v n p q hp hq)]
  rw [h]
  rfl

/-- C7 witness: the behavior at a concrete logger and value. -/
theorem c7_onLog_compact_witness :
    (Logger.mk false true none).hasOnLog = true ∧
    ∃ s, ((Logger.mk false true none).logJSON .info (.obj [("a", .num 1)]) 4).1 =
      [Event.onLogCall .info (stringifyCompact (.obj [("a", .num 1)])), Event.write s] :=
  ⟨rfl, c7_onLog_compact (Logger.mk false true none) .info (.obj [("a", .num 1)]) 4 rfl⟩

/-- C10: with no `getPrefixForTypeOverride`, `getPrefixForType` returns
normally exactly when the uppercased prefix text (the override if supplied,
else the type name) is at most the maximum LoggerType name length — a longer
override makes the space-padding repeat count negative and the call fail with
an error before producing a string — and within `log` and `logJSON` a sink
write can occur only when the prefix computations succeeded. -/
theorem c10_prefix_totality (l : Logger) (t : LoggerType)
    (hov : l.getPrefixForTypeOverride = none) :
    (∀ (co : Option Bool) (ot : Option String),
      (l.getPrefixForType t co ot).isOk = true ↔
        (jsToUpperCase (ot.getD (typeName t))).length ≤ largestLoggerTypeLength) ∧
    (∀ msg, writesOf (l.log t msg).1 ≠ [] →
      (l.getPrefixForType t none none).isOk = true) ∧
    (∀ (v : JsonValue) (n : Nat), writesOf (l.logJSON t v n).1 ≠ [] →
      (l.getPrefixForType t none none).isOk = true ∧
      (l.getPrefixForType t none (some "")).isOk = true) := by
  refine ⟨fun co ot => ?_, fun msg _ => ?_, fun v n _ => ?_⟩
  · constructor
    · intro hk
      by_contra hlen
      rw [getPrefix_error l t co ot hov (by omega)] at hk
      exact absurd hk (by decide)
    · intro hlen
      rw [getPrefix_ok l t co ot hov hlen]
      rfl
  · obtain ⟨p, hp⟩ := getPrefix_default_isOk l t none
    rw [hp]
    rfl
  · obtain ⟨p, hp⟩ := getPrefix_default_isOk l t none
    obtain ⟨q, hq⟩ := getPrefix_empty_isOk l t none
    rw [hp, hq]
    exact ⟨rfl, rfl⟩

/-- C10 witness: at a concrete logger, the default `error`-type prefix
computation succeeds, and a ten-character override text fails. -/
theorem c10_prefix_totality_witness :
    (Logger.mk false false none).getPrefixForTypeOverride = none ∧
    ((Logger.mk false false none).getPrefixForType .error none none).isOk = true ∧
    ((Logger.mk false false none).getPrefixForType .error none (some "TOOLONGTEXT")).isOk
      = false := by
  refine ⟨rfl, ?_, by decide⟩
  exact ((c10_prefix_totality (Logger.mk false false none) .error rfl).1 none none).mpr
    (by decide)

/-! ## C2, C3, C8 -/

theorem data_append (s t : String) : (s ++ t).data = s.data ++ t.data := rfl

theorem replaceAllStr_nl_data (s q : String) (hq2 : '$' ∉ q.data) :
    (replaceAllStr s "\n" ("\n" ++ q ++ " ")).data =
      s.data.flatMap (fun c => if c = '\n' then '\n' :: (q.data ++ [' ']) else [c]) := by
  show replaceAllL ['\n'] (("\n" ++ q ++ " ").data) s.data = _
  have hdata : ("\n" ++ q ++ " ").data = '\n' :: (q.data ++ [' ']) := by
    simp [data_append]
  have hnd : '$' ∉ ("\n" ++ q ++ " ").data := by
    rw [hdata]
    intro hm
    rcases List.mem_cons.mp hm with h1 | h2
    · exact absurd h1 (by decide)
    · rcases List.mem_append.mp h2 with h3 | h4
      · exact hq2 h3
      · simp at h4
  rw [replaceAllL_lit _ _ _ hnd, hdata, replaceAllLit_singleton]

theorem colorType_irrel (l : Logger) (t : LoggerType) (s : String) :
    l.colorType t s = (Logger.mk false false none).colorType t s := rfl

theorem emptyPrefix_no_newline (l : Logger) (t : LoggerType) (q : String)
    (hov : l.getPrefixForTypeOverride = none)
    (hq : l.getPrefixForType t none (some "") = .ok q) :
    ∀ c ∈ q.data, ¬ c = '\n' := by
  rw [getPrefix_ok l t none (some "") hov
    (by show (jsToUpperCase "").length ≤ largestLoggerTypeLength; decide)] at hq
  cases hq
  rw [colorType_irrel]
  simp only [Option.getD_none]
  cases l.useColor <;> cases t <;> decide

theorem emptyPrefix_no_esc (l : Logger) (t : LoggerType) (q : String)
    (hov : l.getPrefixForTypeOverride = none) (hc : l.useColor = false)
    (hq : l.getPrefixForType t none (some "") = .ok q) :
    q.data.count '\x1b' = 0 := by
  rw [getPrefix_ok l t none (some "") hov
    (by show (jsToUpperCase "").length ≤ largestLoggerTypeLength; decide)] at hq
  cases hq
  rw [colorType_irrel]
  simp only [Option.getD_none, hc]
  cases t <;> decide

theorem emptyPrefix_no_dollar (l : Logger) (t : LoggerType) (q : String)
    (hov : l.getPrefixForTypeOverride = none)
    (hq : l.getPrefixForType t none (some "") = .ok q) :
    '$' ∉ q.data := by
  rw [getPrefix_ok l t none (some "") hov
    (by show (jsToUpperCase "").length ≤ largestLoggerTypeLength; decide)] at hq
  cases hq
  rw [colorType_irrel]
  simp only [Option.getD_none]
  cases l.useColor <;> cases t <;> decide

theorem typePrefix_no_esc (l : Logger) (t : LoggerType) (p : String)
    (hov : l.getPrefixForTypeOverride = none) (hc : l.useColor = false)
    (hp : l.getPrefixForType t none none = .ok p) :
    p.data.count '\x1b' = 0 := by
  rw [getPrefix_ok l t none none hov (typeNameUpper_le t)] at hp
  cases hp
  rw [colorType_irrel]
  simp only [Option.getD_none, hc]
  cases t <;> decide

/-- C2 (counterexample): with `useColor = true`, the continuation prefix that
`logJSON` injects after each embedded newline is the colorized empty-text
prefix, not the uncolored one the claim requires regardless of `useColor`. -/
theorem c2_counterexample :
    ¬ (∀ p R : String,
        (Logger.mk true false none).getPrefixForType .info none none = .ok p →
        writesOf ((Logger.mk true false none).logJSON .info (.arr [.null]) 4).1 =
          ["\n" ++ (p ++ " " ++ R)] →
        nlOk (plainPrefixOf (jsToUpperCase "")).data R.data = true) := by
  intro h
  have h0 := h "\x1b[34mINFO    |\x1b[0m"
    "[\n\x1b[34m        |\x1b[0m     \x1b[33mnull\x1b[0m\n\x1b[34m        |\x1b[0m ]"
    rfl (by decide)
  exact absurd h0 (by decide)

/-- C2 (amended): for a Logger with no `getPrefixForTypeOverride`, every
newline embedded in the serialized (and possibly colorized) JSON text of a
`logJSON` sink string is immediately followed by the empty-text-override
prefix computed with the logger's effective color setting,
`getPrefixForType(type, null, '')`. -/
theorem c2_continuation_prefix (l : Logger) (t : LoggerType) (v : JsonValue) (n : Nat)
    (p q R : String)
    (hov : l.getPrefixForTypeOverride = none)
    (hp : l.getPrefixForType t none none = .ok p)
    (hq : l.getPrefixForType t none (some "") = .ok q)
    (hw : writesOf (l.logJSON t v n).1 = ["\n" ++ (p ++ " " ++ R)]) :
    nlOk q.data R.data = true := by
  have hshape := logJSON_eq l t v n p q hp hq
  have hwrites : writesOf (l.logJSON t v n).1 =
      ["\n" ++ (p ++ " " ++
        replaceAllStr (if l.useColor then colorizeJsonText (jsonStringify v n)
                       else jsonStringify v n) "\n" ("\n" ++ q ++ " "))] := by
    rw [show (l.logJSON t v n).1 = _ from congrArg Prod.fst hshape]
    exact writesOf_shape l.hasOnLog t (stringifyCompact v) _
  rw [hwrites] at hw
  have hstr := List.head_eq_of_cons_eq hw.symm
  have hdata := congrArg String.data hstr
  simp only [data_append] at hdata
  have hR : R.data =
      (replaceAllStr (if l.useColor then colorizeJsonText (jsonStringify v n)
                      else jsonStringify v n) "\n" ("\n" ++ q ++ " ")).data := by
    have h2 := List.append_cancel_left hdata
    exact List.append_cancel_left h2
  rw [hR, replaceAllStr_nl_data _ _ (emptyPrefix_no_dollar l t q hov hq)]
  refine nlOk_flatMap q.data (q.data ++ [' ']) ?_ ?_ _
  · rw [List.isPrefixOf_iff_prefix]
    exact List.prefix_append _ _
  · intro c hc
    rcases List.mem_append.mp hc with hcq | hcs
    · exact emptyPrefix_no_newline l t q hov hq c hcq
    · simp at hcs
      rw [hcs]
      decide

/-- C2 witness: the amended property at a concrete colored logger. -/
theorem c2_continuation_prefix_witness :
    (Logger.mk true false none).getPrefixForTypeOverride = none ∧
    nlOk ("\x1b[34m        |\x1b[0m" : String).data
      ("[\n\x1b[34m        |\x1b[0m     \x1b[33mnull\x1b[0m\n\x1b[34m        |\x1b[0m ]" : String).data
      = true :=
  ⟨rfl, c2_continuation_prefix (Logger.mk true false none) .info (.arr [.null]) 4
    "\x1b[34mINFO    |\x1b[0m" "\x1b[34m        |\x1b[0m"
    "[\n\x1b[34m        |\x1b[0m     \x1b[33mnull\x1b[0m\n\x1b[34m        |\x1b[0m ]"
    rfl rfl rfl (by decide)⟩

theorem collectMatches_eq_spec (text : List Char) :
    collectMatches text = specRecordedMatches text := by
  simp [collectMatches, colorEntries, specRecordedMatches, List.foldl]

theorem colorize_eq_spec (text : String) :
    colorizeJsonText text = colorizeSpecTextJS text := by
  unfold colorizeJsonText colorizeSpecTextJS
  rw [collectMatches_eq_spec]

/-- C3 (counterexample): with color enabled, the string `logJSON` hands to the
sink is not in general built from the claim's literal colorization — replace
every occurrence of each recorded match with color + text + reset inserted
verbatim — because `replaceAll` expands dollar patterns in its replacement: at
the object whose string value is "x$$y" the program collapses the double
dollar to one. -/
theorem c3_counterexample :
    ¬ writesOf ((Logger.mk true false none).logJSON .info
        (.obj [("a", .str "x$$y")]) 4).1 =
      ["\n" ++ ("\x1b[34mINFO    |\x1b[0m" ++ " " ++
        replaceAllStr (colorizeSpecText (jsonStringify (.obj [("a", .str "x$$y")]) 4)) "\n"
          ("\n" ++ "\x1b[34m        |\x1b[0m" ++ " "))] := by
  decide

/-- C3 (amended): with `useColor = true`, the string `logJSON` hands to the
sink is the pretty-printed JSON text colorized by the spec's scan — collect
pattern matches in the priority order object keys, string values, numbers,
booleans, null (key → blue, string → green, number/boolean/null → yellow),
then, for each recorded match in that order, replace every occurrence of its
literal text with the replacement string color + text + reset as expanded by
the dollar-substitution rules of `replaceAll` — followed by the newline
re-prefixing. -/
theorem c3_colorize_substitution (l : Logger) (t : LoggerType) (v : JsonValue) (n : Nat)
    (p q : String)
    (hcol : l.useColor = true)
    (hp : l.getPrefixForType t none none = .ok p)
    (hq : l.getPrefixForType t none (some "") = .ok q) :
    writesOf (l.logJSON t v n).1 =
      ["\n" ++ (p ++ " " ++
        replaceAllStr (colorizeSpecTextJS (jsonStringify v n)) "\n" ("\n" ++ q ++ " "))] := by
  have hshape := logJSON_eq l t v n p q hp hq
  rw [show (l.logJSON t v n).1 = _ from congrArg Prod.fst hshape, writesOf_shape, hcol,
    if_pos rfl, colorize_eq_spec]

/-- C3 witness: the colorized output at a concrete logger and a value whose
text contains a double dollar. -/
theorem c3_colorize_substitution_witness :
    (Logger.mk true false none).useColor = true ∧
    writesOf ((Logger.mk true false none).logJSON .info (.obj [("a", .str "x$$y")]) 4).1 =
      ["\n" ++ ("\x1b[34mINFO    |\x1b[0m" ++ " " ++
        replaceAllStr (colorizeSpecTextJS (jsonStringify (.obj [("a", .str "x$$y")]) 4)) "\n"
          ("\n" ++ "\x1b[34m        |\x1b[0m" ++ " "))] :=
  ⟨rfl, c3_colorize_substitution (Logger.mk true false none) .info
    (.obj [("a", .str "x$$y")]) 4
    "\x1b[34mINFO    |\x1b[0m" "\x1b[34m        |\x1b[0m" rfl rfl rfl⟩

/-- C8: with `useColor = false` and no prefix override, the string `logJSON`
writes contains no ANSI escape characters beyond those already present in the
serialization of the source value. -/
theorem c8_no_ansi (l : Logger) (t : LoggerType) (v : JsonValue) (n : Nat)
    (hc : l.useColor = false) (hov : l.getPrefixForTypeOverride = none) :
    ∀ w ∈ writesOf (l.logJSON t v n).1, escCount w ≤ escCount (jsonStringify v n) := by
  obtain ⟨p, hp⟩ := getPrefix_default_isOk l t none
  obtain ⟨q, hq⟩ := getPrefix_empty_isOk l t none
  have hshape := logJSON_eq l t v n p q hp hq
  intro w hw
  rw [show (l.logJSON t v n).1 = _ from congrArg Prod.fst hshape, writesOf_shape, hc,
    if_neg (by decide)] at hw
  rcases List.mem_singleton.mp hw with rfl
  show (("\n" ++ (p ++ " " ++ replaceAllStr (jsonStringify v n) "\n" ("\n" ++ q ++ " "))).data.count '\x1b')
      ≤ escCount (jsonStringify v n)
  simp only [data_append, List.count_append]
  rw [replaceAllStr_nl_data _ _ (emptyPrefix_no_dollar l t q hov hq),
    count_flatMap_nl (q.data ++ [' ']) '\x1b' (by decide) ?_ _]
  · have h1 : (("\n" : String).data.count '\x1b') = 0 := by decide
    have h2 : ((" " : String).data.count '\x1b') = 0 := by decide
    rw [h1, typePrefix_no_esc l t p hov hc hp, h2]
    simp [escCount]
  · rw [List.count_append, emptyPrefix_no_esc l t q hov hc hq]
    decide

/-- C8 witness: the bound at a concrete uncolored logger and value. -/
theorem c8_no_ansi_witness :
    (Logger.mk false false none).useColor = false ∧
    ∀ w ∈ writesOf ((Logger.mk false false none).logJSON .info (.str "a\x1bb") 4).1,
      escCount w ≤ escCount (jsonStringify (.str "a\x1bb") 4) :=
  ⟨rfl, c8_no_ansi (Logger.mk false false none) .info (.str "a\x1bb") 4 rfl rfl⟩

/-! ## Round-trip infrastructure: value induction and decimal digits -/

theorem JsonValue.myInd (P : JsonValue → Prop)
    (hnull : P .null) (hbool : ∀ b, P (.bool b)) (hnum : ∀ i, P (.num i))
    (hstr : ∀ s, P (.str s))
    (harr : ∀ xs, (∀ x ∈ xs, P x) → P (.arr xs))
    (hobj : ∀ fs, (∀ kv ∈ fs, P kv.2) → P (.obj fs)) : ∀ v, P v
  | .null => hnull
  | .bool b => hbool b
  | .num i => hnum i
  | .str s => hstr s
  | .arr xs => harr xs (fun x hx =>
      JsonValue.myInd P hnull hbool hnum hstr harr hobj x)
  | .obj fs => hobj fs (fun kv _hkv =>
      JsonValue.myInd P hnull hbool hnum hstr harr hobj kv.2)
termination_by v => sizeOf v
decreasing_by
  · have h1 := List.sizeOf_lt_of_mem hx
    simp only [JsonValue.arr.sizeOf_spec]
    omega
  · have h1 := List.sizeOf_lt_of_mem _hkv
    have h2 : sizeOf kv.2 < sizeOf kv := by
      cases kv
      simp only [Prod.mk.sizeOf_spec]
      omega
    simp only [JsonValue.obj.sizeOf_spec]
    omega

/-- Value of a digit list, most significant first. -/
def digitsVal (ds : List Char) : Nat :=
  ds.foldl (fun a c => a * 10 + (c.toNat - 48)) 0

theorem uint32_le_toNat (a b : UInt32) : a ≤ b ↔ a.toNat ≤ b.toNat := by
  rw [UInt32.le_def, BitVec.le_def]
  rfl

theorem isDigit_of_bounds (c : Char) (h1 : 48 ≤ c.toNat) (h2 : c.toNat ≤ 57) :
    c.isDigit = true := by
  simp only [Char.isDigit, Bool.and_eq_true, decide_eq_true_eq]
  constructor
  · exact (uint32_le_toNat _ _).mpr (by simpa [Char.toNat] using h1)
  · exact (uint32_le_toNat _ _).mpr (by simpa [Char.toNat] using h2)

theorem bounds_of_isDigit (c : Char) (hd : c.isDigit = true) :
    48 ≤ c.toNat ∧ c.toNat ≤ 57 := by
  simp only [Char.isDigit, Bool.and_eq_true, decide_eq_true_eq] at hd
  exact ⟨(uint32_le_toNat _ _).mp hd.1, (uint32_le_toNat _ _).mp hd.2⟩

theorem char_ofNat_toNat (n : Nat) (h : n < 55296) : (Char.ofNat n).toNat = n := by
  unfold Char.ofNat
  split
  · rfl
  · next hh => exact absurd (Or.inl (by omega)) hh

theorem natToCharsAux_digits (fuel n : Nat) :
    ∀ c ∈ natToCharsAux fuel n, c.isDigit = true := by
  induction fuel generalizing n with
  | zero => intro c hc; exact absurd hc (by simp [natToCharsAux])
  | succ fuel ih =>
    intro c hc
    rw [natToCharsAux] at hc
    by_cases h : n < 10
    · rw [if_pos h] at hc
      rcases List.mem_singleton.mp hc with rfl
      have hv := char_ofNat_toNat (48 + n) (by omega)
      exact isDigit_of_bounds _ (by omega) (by omega)
    · rw [if_neg h] at hc
      rcases List.mem_append.mp hc with h1 | h2
      · exact ih (n / 10) c h1
      · rcases List.mem_singleton.mp h2 with rfl
        have hv := char_ofNat_toNat (48 + n % 10) (by omega)
        exact isDigit_of_bounds _ (by omega) (by omega)

theorem digitsVal_append_one (a : List Char) (c : Char) :
    digitsVal (a ++ [c]) = digitsVal a * 10 + (c.toNat - 48) := by
  unfold digitsVal
  rw [List.foldl_append]
  rfl

theorem natToCharsAux_val (fuel : Nat) :
    ∀ n : Nat, n < fuel → digitsVal (natToCharsAux fuel n) = n := by
  induction fuel with
  | zero => intro n hn; omega
  | succ fuel ih =>
    intro n hn
    rw [natToCharsAux]
    by_cases h : n < 10
    · rw [if_pos h]
      show (0 * 10 + ((Char.ofNat (48 + n)).toNat - 48)) = n
      rw [char_ofNat_toNat (48 + n) (by omega)]
      omega
    · rw [if_neg h]
      rw [digitsVal_append_one, ih (n / 10) (by omega),
        char_ofNat_toNat (48 + n % 10) (by omega)]
      omega

theorem natToChars_val (n : Nat) : digitsVal (natToChars n) = n :=
  natToCharsAux_val (n + 1) n (Nat.lt_succ_self n)

theorem natToChars_digits (n : Nat) : ∀ c ∈ natToChars n, c.isDigit = true :=
  natToCharsAux_digits (n + 1) n

theorem natToCharsAux_ne_nil (fuel n : Nat) (h : 0 < fuel) :
    natToCharsAux fuel n ≠ [] := by
  cases fuel with
  | zero => omega
  | succ fuel =>
    rw [natToCharsAux]
    by_cases h10 : n < 10
    · simp [h10]
    · simp [h10]

theorem natToChars_ne_nil (n : Nat) : natToChars n ≠ [] :=
  natToCharsAux_ne_nil (n + 1) n (Nat.succ_pos n)

/-! ## Parser fuel accounting -/

mutual
/-- Fuel sufficient for `parseValue` to parse this value. -/
def jsonFuel : JsonValue → Nat
  | .null => 1
  | .bool _ => 1
  | .num _ => 1
  | .str _ => 1
  | .arr [] => 1
  | .arr (x :: xs) => 1 + elemsFuel (x :: xs)
  | .obj [] => 1
  | .obj (f :: fs) => 1 + membersFuel (f :: fs)

/-- Fuel sufficient for `parseElems` on these elements. -/
def elemsFuel : List JsonValue → Nat
  | [] => 0
  | [x] => 1 + jsonFuel x
  | x :: y :: xs => 1 + max (jsonFuel x) (elemsFuel (y :: xs))

/-- Fuel sufficient for `parseMembers` on these members. -/
def membersFuel : List (String × JsonValue) → Nat
  | [] => 0
  | [kv] => 1 + jsonFuel kv.2
  | kv :: kv2 :: fs => 1 + max (jsonFuel kv.2) (membersFuel (kv2 :: fs))
end

theorem serializeItems_eq_map (gap inner : String) (xs : List JsonValue) :
    serializeItems gap inner xs = xs.map (serializeJSON gap inner) := by
  induction xs with
  | nil => rfl
  | cons x xs ih => rw [serializeItems, List.map_cons, ih]

theorem serializeFields_eq_map (gap inner : String) (fs : List (String × JsonValue)) :
    serializeFields gap inner fs = fs.map (fun kv =>
      quoteJson kv.1 ++ (if gap.isEmpty then ":" else ": ") ++
        serializeJSON gap inner kv.2) := by
  induction fs with
  | nil => rfl
  | cons kv fs ih =>
    cases kv
    rw [serializeFields, List.map_cons, ih]

theorem forall₂_map_self {α β : Type} (f : α → β) (P : α → β → Prop) :
    ∀ xs : List α, (∀ x ∈ xs, P x (f x)) → List.Forall₂ P xs (xs.map f) := by
  intro xs
  induction xs with
  | nil => intro _; exact List.Forall₂.nil
  | cons x xs ih =>
    intro h
    exact List.Forall₂.cons (h x (List.mem_cons_self x xs))
      (ih (fun y hy => h y (List.mem_cons_of_mem x hy)))

theorem elemsFuel_le (sep : String) (hsep : 1 ≤ sep.length) :
    ∀ (xs : List JsonValue) (strs : List String),
      List.Forall₂ (fun x s => jsonFuel x ≤ s.length) xs strs →
      elemsFuel xs ≤ (joinSep sep strs).length + 1 := by
  intro xs strs h
  induction h with
  | nil => simp [elemsFuel, joinSep]
  | @cons x s xs strs hx hrest ih =>
    cases hrest with
    | nil =>
      show elemsFuel [x] ≤ (joinSep sep [s]).length + 1
      rw [elemsFuel, joinSep]
      omega
    | @cons y s2 ys ss hy hrest2 =>
      show elemsFuel (x :: y :: ys) ≤ (joinSep sep (s :: s2 :: ss)).length + 1
      rw [elemsFuel, joinSep, String.length_append, String.length_append]
      omega

theorem membersFuel_le (sep : String) (hsep : 1 ≤ sep.length) :
    ∀ (fs : List (String × JsonValue)) (strs : List String),
      List.Forall₂ (fun kv s => jsonFuel kv.2 ≤ s.length) fs strs →
      membersFuel fs ≤ (joinSep sep strs).length + 1 := by
  intro fs strs h
  induction h with
  | nil => simp [membersFuel, joinSep]
  | @cons kv s fs strs hx hrest ih =>
    cases hrest with
    | nil =>
      show membersFuel [kv] ≤ (joinSep sep [s]).length + 1
      rw [membersFuel, joinSep]
      omega
    | @cons kv2 s2 ys ss hy hrest2 =>
      show membersFuel (kv :: kv2 :: ys) ≤ (joinSep sep (s :: s2 :: ss)).length + 1
      rw [membersFuel, joinSep, String.length_append, String.length_append]
      omega

theorem intToChars_ne_nil (i : Int) : intToChars i ≠ [] := by
  unfold intToChars
  by_cases h : i < 0
  · simp [h]
  · simp [h, natToChars_ne_nil]

theorem jsonFuel_le_length (gap indent : String) (v : JsonValue) :
    jsonFuel v ≤ (serializeJSON gap indent v).length := by
  induction v using JsonValue.myInd generalizing indent with
  | hnull =>
    simp only [jsonFuel, serializeJSON]
    decide
  | hbool b => cases b <;> simp only [jsonFuel, serializeJSON] <;> decide
  | hnum i =>
    rw [jsonFuel, serializeJSON]
    show 1 ≤ (intToChars i).length
    have := intToChars_ne_nil i
    have := List.length_pos.mpr this
    omega
  | hstr s =>
    rw [jsonFuel, serializeJSON]
    show 1 ≤ ('"' :: s.data.flatMap escapeChar ++ ['"']).length
    simp
  | harr xs ih =>
    cases xs with
    | nil =>
      simp only [jsonFuel, serializeJSON]
      decide
    | cons x rest =>
      rw [jsonFuel, serializeJSON]
      by_cases hg : gap.isEmpty
      · rw [if_pos hg, serializeItems_eq_map]
        have hf := forall₂_map_self (serializeJSON gap (indent ++ gap))
          (fun x s => jsonFuel x ≤ s.length) (x :: rest)
          (fun y hy => ih y hy (indent ++ gap))
        have hb := elemsFuel_le "," (by decide) (x :: rest) _ hf
        rw [String.length_append, String.length_append]
        have e1 : ("[" : String).length = 1 := rfl
        have e2 : ("]" : String).length = 1 := rfl
        omega
      · rw [if_neg hg, serializeItems_eq_map, List.map_map]
        have hf := forall₂_map_self
          ((fun it => indent ++ gap ++ it) ∘ serializeJSON gap (indent ++ gap))
          (fun x s => jsonFuel x ≤ s.length) (x :: rest)
          (fun y hy => by
            show jsonFuel y ≤ (indent ++ gap ++ serializeJSON gap (indent ++ gap) y).length
            rw [String.length_append]
            have := ih y hy (indent ++ gap)
            omega)
        have hb := elemsFuel_le ",\n" (by decide) (x :: rest) _ hf
        simp only [String.length_append]
        have e1 : ("[\n" : String).length = 2 := rfl
        have e2 : ("\n" : String).length = 1 := rfl
        have e3 : ("]" : String).length = 1 := rfl
        omega
  | hobj fs ih =>
    cases fs with
    | nil =>
      simp only [jsonFuel, serializeJSON]
      decide
    | cons f rest =>
      rw [jsonFuel, serializeJSON]
      by_cases hg : gap.isEmpty
      · rw [if_pos hg, serializeFields_eq_map]
        have hf := forall₂_map_self
          (fun kv => quoteJson kv.1 ++ (if gap.isEmpty then ":" else ": ") ++
            serializeJSON gap (indent ++ gap) kv.2)
          (fun kv s => jsonFuel kv.2 ≤ s.length) (f :: rest)
          (fun kv hkv => by
            show jsonFuel kv.2 ≤ (quoteJson kv.1 ++ (if gap.isEmpty then ":" else ": ") ++
              serializeJSON gap (indent ++ gap) kv.2).length
            simp only [String.length_append]
            have := ih kv hkv (indent ++ gap)
            omega)
        have hb := membersFuel_le "," (by decide) (f :: rest) _ hf
        rw [String.length_append, String.length_append]
        have e1 : ("\x7b" : String).length = 1 := rfl
        have e2 : ("\x7d" : String).length = 1 := rfl
        omega
      · rw [if_neg hg, serializeFields_eq_map, List.map_map]
        have hf := forall₂_map_self
          ((fun it => indent ++ gap ++ it) ∘
            (fun kv => quoteJson kv.1 ++ (if gap.isEmpty then ":" else ": ") ++
              serializeJSON gap (indent ++ gap) kv.2))
          (fun kv s => jsonFuel kv.2 ≤ s.length) (f :: rest)
          (fun kv hkv => by
            show jsonFuel kv.2 ≤ (indent ++ gap ++ (quoteJson kv.1 ++
              (if gap.isEmpty then ":" else ": ") ++
              serializeJSON gap (indent ++ gap) kv.2)).length
            simp only [String.length_append]
            have := ih kv hkv (indent ++ gap)
            omega)
        have hb := membersFuel_le ",\n" (by decide) (f :: rest) _ hf
        simp only [String.length_append]
        have e1 : ("\x7b\n" : String).length = 2 := rfl
        have e2 : ("\n" : String).length = 1 := rfl
        have e3 : ("\x7d" : String).length = 1 := rfl
        omega

/-! ## Whitespace, delimiter and token lemmas -/

theorem skipWs_cons_not_ws (c : Char) (s : List Char) (h : jsonWs c = false) :
    skipWs (c :: s) = c :: s := by
  simp [skipWs, List.dropWhile_cons, h]

theorem skipWs_append_ws (u : List Char) (hu : ∀ c ∈ u, jsonWs c = true) (s : List Char) :
    skipWs (u ++ s) = skipWs s := by
  induction u with
  | nil => rfl
  | cons c cs ih =>
    rw [List.cons_append]
    show List.dropWhile jsonWs (c :: (cs ++ s)) = _
    rw [List.dropWhile_cons, if_pos (hu c (List.mem_cons_self c cs))]
    exact ih (fun d hd => hu d (List.mem_cons_of_mem c hd))

theorem char_ne_of_toNat_ne {c d : Char} (h : c.toNat ≠ d.toNat) : c ≠ d :=
  fun he => h (congrArg Char.toNat he)

theorem digit_not_ws (c : Char) (hd : c.isDigit = true) : jsonWs c = false := by
  obtain ⟨h1, h2⟩ := bounds_of_isDigit c hd
  have hne : ∀ d : Char, d.toNat < 48 → c ≠ d := fun d hdn => char_ne_of_toNat_ne (by omega)
  simp [jsonWs, hne ' ' (by decide), hne '\t' (by decide), hne '\n' (by decide),
    hne '\r' (by decide)]

theorem char_ne_of_isDigit (c : Char) (hd : c.isDigit = true) (d : Char)
    (hdn : d.toNat < 48 ∨ 57 < d.toNat) : c ≠ d := by
  obtain ⟨h1, h2⟩ := bounds_of_isDigit c hd
  exact char_ne_of_toNat_ne (by omega)

theorem digit_head_branches (c : Char) (hd : c.isDigit = true) :
    c ≠ 'n' ∧ c ≠ 't' ∧ c ≠ 'f' ∧ c ≠ '"' ∧ c ≠ '[' ∧ c ≠ '\x7b' ∧ c ≠ '-' :=
  ⟨char_ne_of_isDigit c hd 'n' (by decide), char_ne_of_isDigit c hd 't' (by decide),
   char_ne_of_isDigit c hd 'f' (by decide), char_ne_of_isDigit c hd '"' (by decide),
   char_ne_of_isDigit c hd '[' (by decide), char_ne_of_isDigit c hd '\x7b' (by decide),
   char_ne_of_isDigit c hd '-' (by decide)⟩

/-- Delimiters that can legally follow a serialized value inside a JSON
document (or its end). -/
def delimOk (s : List Char) : Prop :=
  s = [] ∨ ∃ c t, s = c :: t ∧ (c = ',' ∨ c = ']' ∨ c = '\x7d' ∨ jsonWs c = true)

theorem delimOk_head_not_digit (s : List Char) (h : delimOk s) :
    ∀ c, s.head? = some c → c.isDigit = false := by
  intro c hc
  rcases h with rfl | ⟨d, t, rfl, hd⟩
  · exact absurd hc (by simp)
  · rw [List.head?_cons, Option.some.injEq] at hc
    subst hc
    by_contra hdig
    rw [Bool.not_eq_false] at hdig
    rcases hd with rfl | rfl | rfl | hws
    · exact absurd hdig (by decide)
    · exact absurd hdig (by decide)
    · exact absurd hdig (by decide)
    · rw [digit_not_ws _ hdig] at hws
      exact absurd hws (by decide)

theorem parseNatDigits_natToChars (n : Nat) (rest : List Char)
    (hrest : ∀ c, rest.head? = some c → c.isDigit = false) :
    parseNatDigits (natToChars n ++ rest) = some (n, rest) := by
  unfold parseNatDigits
  have htw1 : (natToChars n).takeWhile Char.isDigit = natToChars n :=
    List.takeWhile_eq_self_iff.mpr (natToChars_digits n)
  have htw2 : rest.takeWhile Char.isDigit = [] := by
    cases rest with
    | nil => rfl
    | cons c t =>
      rw [List.takeWhile_cons, if_neg]
      rw [hrest c (by simp)]
      simp
  have htw : (natToChars n ++ rest).takeWhile Char.isDigit = natToChars n := by
    rw [List.takeWhile_append, htw1]
    simp [htw2]
  rw [htw]
  rw [if_neg (by simp [natToChars_ne_nil n])]
  have hval : (natToChars n).foldl (fun a c => a * 10 + (c.toNat - 48)) 0 = n :=
    natToChars_val n
  rw [hval, List.drop_left]

theorem parseNumber_intToChars (i : Int) (rest : List Char)
    (hrest : ∀ c, rest.head? = some c → c.isDigit = false) :
    parseNumber (intToChars i ++ rest) = some (i, rest) := by
  unfold intToChars parseNumber
  by_cases h : i < 0
  · rw [if_pos h]
    rw [List.cons_append, List.head?_cons]
    rw [if_pos rfl]
    show (parseNatDigits (natToChars i.natAbs ++ rest)).map _ = _
    rw [parseNatDigits_natToChars i.natAbs rest hrest]
    have he : -((i.natAbs : Nat) : Int) = i := by omega
    show some (-((i.natAbs : Nat) : Int), rest) = some (i, rest)
    rw [he]
  · rw [if_neg h]
    obtain ⟨c, t, hct⟩ := List.exists_cons_of_ne_nil (natToChars_ne_nil i.toNat)
    have hcd : c.isDigit = true := natToChars_digits i.toNat c (by rw [hct]; simp)
    have hcne : c ≠ '-' := char_ne_of_isDigit c hcd '-' (by decide)
    rw [hct, List.cons_append, List.head?_cons]
    rw [if_neg (by simp [hcne])]
    rw [← List.cons_append, ← hct]
    rw [parseNatDigits_natToChars i.toNat rest hrest]
    have he : ((i.toNat : Nat) : Int) = i := by omega
    show some (((i.toNat : Nat) : Int), rest) = some (i, rest)
    rw [he]

theorem parseHexDigit_hexDigitChar : ∀ m, m < 16 → parseHexDigit (hexDigitChar m) = some m := by
  decide

theorem parse_u_escape_gen (a b c2 d : Char) (x y z w : Nat)
    (ha : parseHexDigit a = some x) (hb : parseHexDigit b = some y)
    (hc : parseHexDigit c2 = some z) (hd : parseHexDigit d = some w) (M : List Char) :
    parseStringBody ('\\' :: 'u' :: a :: b :: c2 :: d :: M) =
      (parseStringBody M).map
        (fun r => (Char.ofNat (x * 4096 + y * 256 + z * 16 + w) :: r.1, r.2)) := by
  rw [parseStringBody.eq_def]
  simp [ha, hb, hc, hd]

theorem parseStringBody_escape (cs : List Char) : ∀ rest : List Char,
    parseStringBody (cs.flatMap escapeChar ++ ('"' :: rest)) = some (cs, rest) := by
  induction cs with
  | nil =>
    intro rest
    show parseStringBody ('"' :: rest) = some ([], rest)
    rw [parseStringBody.eq_def]
    simp
  | cons c cs ih =>
    intro rest
    rw [List.flatMap_cons, List.append_assoc]
    by_cases h1 : c = '"'
    · subst h1
      have he : escapeChar '"' = ['\\', '"'] := by decide
      rw [he, List.cons_append, List.singleton_append, parseStringBody.eq_def]
      simp [decodeEscape, ih rest]
    by_cases h2 : c = '\\'
    · subst h2
      have he : escapeChar '\\' = ['\\', '\\'] := by decide
      rw [he, List.cons_append, List.singleton_append, parseStringBody.eq_def]
      simp [decodeEscape, ih rest]
    by_cases h3 : c = '\x08'
    · subst h3
      have he : escapeChar '\x08' = ['\\', 'b'] := by decide
      rw [he, List.cons_append, List.singleton_append, parseStringBody.eq_def]
      simp [decodeEscape, ih rest]
    by_cases h4 : c = '\x09'
    · subst h4
      have he : escapeChar '\x09' = ['\\', 't'] := by decide
      rw [he, List.cons_append, List.singleton_append, parseStringBody.eq_def]
      simp [decodeEscape, ih rest]
    by_cases h5 : c = '\x0a'
    · subst h5
      have he : escapeChar '\x0a' = ['\\', 'n'] := by decide
      rw [he, List.cons_append, List.singleton_append, parseStringBody.eq_def]
      simp [decodeEscape, ih rest]
    by_cases h6 : c = '\x0c'
    · subst h6
      have he : escapeChar '\x0c' = ['\\', 'f'] := by decide
      rw [he, List.cons_append, List.singleton_append, parseStringBody.eq_def]
      simp [decodeEscape, ih rest]
    by_cases h7 : c = '\x0d'
    · subst h7
      have he : escapeChar '\x0d' = ['\\', 'r'] := by decide
      rw [he, List.cons_append, List.singleton_append, parseStringBody.eq_def]
      simp [decodeEscape, ih rest]
    by_cases h8 : c.toNat < 0x20
    · have he : escapeChar c = '\\' :: 'u' :: hex4 c.toNat := by
        unfold escapeChar
        rw [if_neg h1, if_neg h2, if_neg h3, if_neg h4, if_neg h5, if_neg h6, if_neg h7,
          if_pos h8]
      rw [he, List.cons_append, List.cons_append]
      show parseStringBody ('\\' :: 'u' :: hexDigitChar (c.toNat / 4096 % 16) ::
        hexDigitChar (c.toNat / 256 % 16) :: hexDigitChar (c.toNat / 16 % 16) ::
        hexDigitChar (c.toNat % 16) :: (cs.flatMap escapeChar ++ '"' :: rest)) =
        some (c :: cs, rest)
      rw [parse_u_escape_gen _ _ _ _ _ _ _ _
        (parseHexDigit_hexDigitChar _ (by omega)) (parseHexDigit_hexDigitChar _ (by omega))
        (parseHexDigit_hexDigitChar _ (by omega)) (parseHexDigit_hexDigitChar _ (by omega)),
        ih rest]
      have hrec : c.toNat / 4096 % 16 * 4096 + c.toNat / 256 % 16 * 256 +
          c.toNat / 16 % 16 * 16 + c.toNat % 16 = c.toNat := by omega
      rw [Option.map_some', hrec, Char.ofNat_toNat]
    · have he : escapeChar c = [c] := by
        unfold escapeChar
        rw [if_neg h1, if_neg h2, if_neg h3, if_neg h4, if_neg h5, if_neg h6, if_neg h7,
          if_neg h8]
      rw [he, List.singleton_append, parseStringBody.eq_def]
      simp [h1, h2, ih rest]

/-! ## Parser absorption and serialized-shape lemmas -/

theorem parseValue_ws (u : List Char) (hu : ∀ c ∈ u, jsonWs c = true) :
    ∀ (fuel : Nat) (s : List Char), parseValue fuel (u ++ s) = parseValue fuel s := by
  intro fuel s
  cases fuel with
  | zero => rfl
  | succ fuel => rw [parseValue, parseValue, skipWs_append_ws u hu s]

theorem parseElems_ws (u : List Char) (hu : ∀ c ∈ u, jsonWs c = true) :
    ∀ (fuel : Nat) (s : List Char), parseElems fuel (u ++ s) = parseElems fuel s := by
  intro fuel s
  cases fuel with
  | zero => rfl
  | succ fuel => rw [parseElems, parseElems, parseValue_ws u hu]

theorem parseMembers_ws (u : List Char) (hu : ∀ c ∈ u, jsonWs c = true) :
    ∀ (fuel : Nat) (s : List Char), parseMembers fuel (u ++ s) = parseMembers fuel s := by
  intro fuel s
  cases fuel with
  | zero => rfl
  | succ fuel => rw [parseMembers, parseMembers, skipWs_append_ws u hu s]

theorem intToChars_head (i : Int) :
    ∃ c t, intToChars i = c :: t ∧ (c = '-' ∨ c.isDigit = true) := by
  unfold intToChars
  by_cases h : i < 0
  · exact ⟨'-', natToChars i.natAbs, by rw [if_pos h], Or.inl rfl⟩
  · obtain ⟨c, t, hct⟩ := List.exists_cons_of_ne_nil (natToChars_ne_nil i.toNat)
    exact ⟨c, t, by rw [if_neg h, hct],
      Or.inr (natToChars_digits i.toNat c (by rw [hct]; simp))⟩

/-- Head of a serialized JSON value: never whitespace, never a closing
bracket or brace. -/
theorem serializeJSON_head (gap ind : String) (v : JsonValue) :
    ∃ c t, (serializeJSON gap ind v).data = c :: t ∧ jsonWs c = false ∧
      c ≠ ']' ∧ c ≠ '\x7d' := by
  cases v with
  | null => exact ⟨'n', "ull".data, rfl, by decide, by decide, by decide⟩
  | bool b =>
    cases b
    · exact ⟨'f', "alse".data, rfl, by decide, by decide, by decide⟩
    · exact ⟨'t', "rue".data, rfl, by decide, by decide, by decide⟩
  | num i =>
    obtain ⟨c, t, hct, hc⟩ := intToChars_head i
    refine ⟨c, t, ?_, ?_, ?_, ?_⟩
    · show (intToChars i) = c :: t
      exact hct
    · rcases hc with rfl | hd
      · decide
      · exact digit_not_ws c hd
    · rcases hc with rfl | hd
      · decide
      · exact char_ne_of_isDigit c hd ']' (by decide)
    · rcases hc with rfl | hd
      · decide
      · exact char_ne_of_isDigit c hd '\x7d' (by decide)
  | str s =>
    exact ⟨'"', s.data.flatMap escapeChar ++ ['"'], rfl, by decide, by decide, by decide⟩
  | arr xs =>
    cases xs with
    | nil => exact ⟨'[', "]".data, rfl, by decide, by decide, by decide⟩
    | cons x rest =>
      rw [serializeJSON]
      by_cases hg : gap.isEmpty
      · rw [if_pos hg]
        exact ⟨'[', _, rfl, by decide, by decide, by decide⟩
      · rw [if_neg hg]
        exact ⟨'[', _, rfl, by decide, by decide, by decide⟩
  | obj fs =>
    cases fs with
    | nil => exact ⟨'\x7b', "\x7d".data, rfl, by decide, by decide, by decide⟩
    | cons f rest =>
      rw [serializeJSON]
      by_cases hg : gap.isEmpty
      · rw [if_pos hg]
        exact ⟨'\x7b', _, rfl, by decide, by decide, by decide⟩
      · rw [if_neg hg]
        exact ⟨'\x7b', _, rfl, by decide, by decide, by decide⟩

/-- The character stream that `parseElems` consumes for a nonempty array:
items separated by `','` plus whitespace, closed by whitespace and `']'`. -/
def elemsText (gap ind : String) (sepTail closeWs : List Char) :
    List JsonValue → List Char → List Char
  | [], rest => rest
  | [x], rest => (serializeJSON gap ind x).data ++ (closeWs ++ ']' :: rest)
  | x :: y :: xs, rest =>
    (serializeJSON gap ind x).data ++
      (',' :: (sepTail ++ elemsText gap ind sepTail closeWs (y :: xs) rest))

/-- The character stream that `parseMembers` consumes for a nonempty object. -/
def membersText (gap ind : String) (colonTail sepTail closeWs : List Char) :
    List (String × JsonValue) → List Char → List Char
  | [], rest => rest
  | [(k, v)], rest =>
    (quoteJson k).data ++ (':' :: (colonTail ++ ((serializeJSON gap ind v).data ++
      (closeWs ++ '\x7d' :: rest))))
  | (k, v) :: kv :: fs, rest =>
    (quoteJson k).data ++ (':' :: (colonTail ++ ((serializeJSON gap ind v).data ++
      (',' :: (sepTail ++ membersText gap ind colonTail sepTail closeWs (kv :: fs) rest)))))

theorem data_comma : ("," : String).data = [','] := rfl

theorem data_comma_nl : (",\n" : String).data = [',', '\n'] := rfl

theorem data_colon : (":" : String).data = [':'] := rfl

theorem data_colon_sp : (": " : String).data = [':', ' '] := rfl

theorem elemsText_compact (gap ind : String) (rest : List Char) :
    ∀ (xs : List JsonValue) (x : JsonValue),
      (joinSep "," (serializeItems gap ind (x :: xs))).data ++ ']' :: rest =
        elemsText gap ind [] [] (x :: xs) rest := by
  intro xs
  induction xs with
  | nil =>
    intro x
    rw [elemsText]
    simp [serializeItems, joinSep, data_append, List.append_assoc]
  | cons y ys ih =>
    intro x
    rw [elemsText]
    rw [← ih y]
    simp [serializeItems, joinSep, data_append, data_comma, List.append_assoc]

theorem elemsText_pretty (gap inner ind : String) (rest : List Char) :
    ∀ (xs : List JsonValue) (x : JsonValue),
      (joinSep ",\n" ((serializeItems gap inner (x :: xs)).map
          (fun it => inner ++ it))).data ++ '\n' :: (ind.data ++ ']' :: rest) =
        inner.data ++ elemsText gap inner ('\n' :: inner.data) ('\n' :: ind.data)
          (x :: xs) rest := by
  intro xs
  induction xs with
  | nil =>
    intro x
    rw [elemsText]
    simp [serializeItems, joinSep, data_append, List.append_assoc]
  | cons y ys ih =>
    intro x
    rw [elemsText]
    simp only [List.cons_append]
    rw [← ih y]
    simp [serializeItems, joinSep, data_append, data_comma_nl, List.append_assoc]

theorem membersText_compact (gap ind : String) (hg : gap.isEmpty = true) (rest : List Char) :
    ∀ (fs : List (String × JsonValue)) (f : String × JsonValue),
      (joinSep "," (serializeFields gap ind (f :: fs))).data ++ '\x7d' :: rest =
        membersText gap ind [] [] [] (f :: fs) rest := by
  intro fs
  induction fs with
  | nil =>
    intro f
    cases f with
    | mk k v =>
      rw [membersText]
      simp [serializeFields, joinSep, data_append, hg, data_colon, List.append_assoc]
  | cons f2 fs2 ih =>
    intro f
    cases f with
    | mk k v =>
      rw [membersText]
      rw [← ih f2]
      simp [serializeFields, joinSep, data_append, hg, data_colon, data_comma,
        List.append_assoc]

theorem membersText_pretty (gap inner ind : String) (hg : gap.isEmpty = false)
    (rest : List Char) :
    ∀ (fs : List (String × JsonValue)) (f : String × JsonValue),
      (joinSep ",\n" ((serializeFields gap inner (f :: fs)).map
          (fun it => inner ++ it))).data ++ '\n' :: (ind.data ++ '\x7d' :: rest) =
        inner.data ++ membersText gap inner [' '] ('\n' :: inner.data)
          ('\n' :: ind.data) (f :: fs) rest := by
  intro fs
  induction fs with
  | nil =>
    intro f
    cases f with
    | mk k v =>
      rw [membersText]
      simp [serializeFields, joinSep, data_append, hg, data_colon_sp, List.append_assoc]
  | cons f2 fs2 ih =>
    intro f
    cases f with
    | mk k v =>
      rw [membersText]
      simp only [List.cons_append]
      rw [← ih f2]
      simp [serializeFields, joinSep, data_append, hg, data_colon_sp, data_comma_nl,
        List.append_assoc]

/-! ## Parser step lemmas -/

theorem parseValue_step_null (fuel : Nat) (rest : List Char) :
    parseValue (fuel + 1) ("null".data ++ rest) = some (.null, rest) := by
  show parseValue (fuel + 1) ('n' :: 'u' :: 'l' :: 'l' :: rest) = some (.null, rest)
  rw [parseValue, skipWs_cons_not_ws 'n' _ (by decide)]
  simp [List.isPrefixOf]

theorem parseValue_step_true (fuel : Nat) (rest : List Char) :
    parseValue (fuel + 1) ("true".data ++ rest) = some (.bool true, rest) := by
  show parseValue (fuel + 1) ('t' :: 'r' :: 'u' :: 'e' :: rest) = some (.bool true, rest)
  rw [parseValue, skipWs_cons_not_ws 't' _ (by decide)]
  simp [List.isPrefixOf]

theorem parseValue_step_false (fuel : Nat) (rest : List Char) :
    parseValue (fuel + 1) ("false".data ++ rest) = some (.bool false, rest) := by
  show parseValue (fuel + 1) ('f' :: 'a' :: 'l' :: 's' :: 'e' :: rest) = some (.bool false, rest)
  rw [parseValue, skipWs_cons_not_ws 'f' _ (by decide)]
  simp [List.isPrefixOf]

theorem parseValue_step_arr_nil (fuel : Nat) (rest : List Char) :
    parseValue (fuel + 1) ("[]".data ++ rest) = some (.arr [], rest) := rfl

theorem parseValue_step_obj_nil (fuel : Nat) (rest : List Char) :
    parseValue (fuel + 1) ("\x7b\x7d".data ++ rest) = some (.obj [], rest) := rfl

theorem parseValue_step_str (fuel : Nat) (s : String) (rest : List Char) :
    parseValue (fuel + 1) ((quoteJson s).data ++ rest) = some (.str s, rest) := by
  have hsh : (quoteJson s).data ++ rest =
      '"' :: (s.data.flatMap escapeChar ++ ('"' :: rest)) := by
    show ('"' :: (s.data.flatMap escapeChar ++ ['"'])) ++ rest = _
    simp [List.append_assoc]
  rw [hsh, parseValue, skipWs_cons_not_ws '"' _ (by decide)]
  simp [parseStringBody_escape s.data rest]

theorem parseValue_step_num (fuel : Nat) (i : Int) (rest : List Char)
    (hrest : delimOk rest) :
    parseValue (fuel + 1) (intToChars i ++ rest) = some (.num i, rest) := by
  obtain ⟨c0, t0, hct, hc⟩ := intToChars_head i
  have hws : jsonWs c0 = false := by
    rcases hc with rfl | hd
    · decide
    · exact digit_not_ws c0 hd
  have hbr : c0 ≠ 'n' ∧ c0 ≠ 't' ∧ c0 ≠ 'f' ∧ c0 ≠ '"' ∧ c0 ≠ '[' ∧ c0 ≠ '\x7b' := by
    rcases hc with rfl | hd
    · refine ⟨by decide, by decide, by decide, by decide, by decide, by decide⟩
    · obtain ⟨a1, a2, a3, a4, a5, a6, _⟩ := digit_head_branches c0 hd
      exact ⟨a1, a2, a3, a4, a5, a6⟩
  rw [hct, List.cons_append, parseValue, skipWs_cons_not_ws c0 _ hws]
  obtain ⟨b1, b2, b3, b4, b5, b6⟩ := hbr
  simp only [if_neg b1, if_neg b2, if_neg b3, if_neg b4, if_neg b5, if_neg b6]
  rw [show c0 :: (t0 ++ rest) = intToChars i ++ rest from by rw [hct, List.cons_append]]
  rw [parseNumber_intToChars i rest (delimOk_head_not_digit rest hrest)]
  rfl

theorem parseValue_step_arr (fuel : Nat) (W : List Char) (c0 : Char) (E' : List Char)
    (hW : ∀ c ∈ W, jsonWs c = true) (hws : jsonWs c0 = false) (hbr : c0 ≠ ']') :
    parseValue (fuel + 1) ('[' :: (W ++ (c0 :: E'))) =
      (parseElems fuel (c0 :: E')).map (fun r => (JsonValue.arr r.1, r.2)) := by
  rw [parseValue, skipWs_cons_not_ws '[' _ (by decide)]
  simp [skipWs_append_ws W hW, skipWs_cons_not_ws c0 E' hws, hbr]

theorem parseValue_step_obj (fuel : Nat) (W : List Char) (c0 : Char) (E' : List Char)
    (hW : ∀ c ∈ W, jsonWs c = true) (hws : jsonWs c0 = false) (hbc : c0 ≠ '\x7d') :
    parseValue (fuel + 1) ('\x7b' :: (W ++ (c0 :: E'))) =
      (parseMembers fuel (c0 :: E')).map (fun r => (JsonValue.obj r.1, r.2)) := by
  rw [parseValue, skipWs_cons_not_ws '\x7b' _ (by decide)]
  simp [skipWs_append_ws W hW, skipWs_cons_not_ws c0 E' hws, hbc]

theorem delimOk_cons_of (c : Char) (t : List Char)
    (h : c = ',' ∨ c = ']' ∨ c = '\x7d' ∨ jsonWs c = true) : delimOk (c :: t) :=
  Or.inr ⟨c, t, rfl, h⟩

theorem delimOk_closeWs (closeWs : List Char) (hws : ∀ c ∈ closeWs, jsonWs c = true)
    (c : Char) (hc : c = ']' ∨ c = '\x7d') (rest : List Char) :
    delimOk (closeWs ++ c :: rest) := by
  cases closeWs with
  | nil =>
    refine delimOk_cons_of c rest ?_
    rcases hc with rfl | rfl
    · exact Or.inr (Or.inl rfl)
    · exact Or.inr (Or.inr (Or.inl rfl))
  | cons d t =>
    exact delimOk_cons_of d _ (Or.inr (Or.inr (Or.inr (hws d (by simp)))))

theorem elemsText_head (gap ind : String) (sepTail closeWs rest : List Char)
    (x : JsonValue) (xs : List JsonValue) :
    ∃ u, elemsText gap ind sepTail closeWs (x :: xs) rest =
      (serializeJSON gap ind x).data ++ u := by
  cases xs with
  | nil => exact ⟨_, rfl⟩
  | cons y ys => exact ⟨_, rfl⟩

theorem appendWs_of (ind gap : String)
    (hind : ∀ c ∈ ind.data, jsonWs c = true) (hgap : ∀ c ∈ gap.data, jsonWs c = true) :
    ∀ c ∈ (ind ++ gap).data, jsonWs c = true := by
  intro c hc
  rcases List.mem_append.mp hc with h | h
  · exact hind c h
  · exact hgap c h

theorem skipWs_comma (t : List Char) : skipWs (',' :: t) = ',' :: t :=
  skipWs_cons_not_ws ',' t (by decide)

theorem skipWs_rbracket (t : List Char) : skipWs (']' :: t) = ']' :: t :=
  skipWs_cons_not_ws ']' t (by decide)

theorem skipWs_rbrace (t : List Char) : skipWs ('\x7d' :: t) = '\x7d' :: t :=
  skipWs_cons_not_ws '\x7d' t (by decide)

theorem skipWs_colon (t : List Char) : skipWs (':' :: t) = ':' :: t :=
  skipWs_cons_not_ws ':' t (by decide)

theorem skipWs_quote (t : List Char) : skipWs ('"' :: t) = '"' :: t :=
  skipWs_cons_not_ws '"' t (by decide)

theorem membersText_head (gap ind : String) (colonTail sepTail closeWs rest : List Char)
    (f : String × JsonValue) (fs : List (String × JsonValue)) :
    ∃ u, membersText gap ind colonTail sepTail closeWs (f :: fs) rest = '"' :: u := by
  obtain ⟨k, v⟩ := f
  cases fs with
  | nil => exact ⟨_, rfl⟩
  | cons f2 fs2 => exact ⟨_, rfl⟩

theorem jsonFuel_pos (v : JsonValue) : 1 ≤ jsonFuel v := by
  cases v with
  | null => simp [jsonFuel]
  | bool b => simp [jsonFuel]
  | num i => simp [jsonFuel]
  | str s => simp [jsonFuel]
  | arr xs => cases xs <;> simp [jsonFuel]
  | obj fs => cases fs <;> simp [jsonFuel]

theorem elemsFuel_pos (x : JsonValue) (xs : List JsonValue) :
    1 ≤ elemsFuel (x :: xs) := by
  cases xs <;> simp [elemsFuel]

theorem membersFuel_pos (f : String × JsonValue) (fs : List (String × JsonValue)) :
    1 ≤ membersFuel (f :: fs) := by
  cases fs <;> simp [membersFuel]

theorem data_lbrk_nl : ("[\n" : String).data = ['[', '\n'] := rfl

theorem data_nl : ("\n" : String).data = ['\n'] := rfl

theorem data_rbrk : ("]" : String).data = [']'] := rfl

theorem data_lbrc_nl : ("\x7b\n" : String).data = ['\x7b', '\n'] := rfl

theorem data_rbrc : ("\x7d" : String).data = ['\x7d'] := rfl

/-- The master round-trip lemma: with whitespace-only `gap` and `ind`, parsing
the serialization of a value (followed by a legal delimiter) recovers the
value, given sufficient fuel; likewise for array elements and object members. -/
theorem parse_master (gap : String) (hgap : ∀ c ∈ gap.data, jsonWs c = true) :
    ∀ fuel : Nat,
      (∀ (v : JsonValue) (ind : String) (rest : List Char),
        (∀ c ∈ ind.data, jsonWs c = true) →
        jsonFuel v ≤ fuel → delimOk rest →
        parseValue fuel ((serializeJSON gap ind v).data ++ rest) = some (v, rest)) ∧
      (∀ (x : JsonValue) (xs : List JsonValue) (ind : String)
          (sepTail closeWs rest : List Char),
        (∀ c ∈ ind.data, jsonWs c = true) →
        (∀ c ∈ sepTail, jsonWs c = true) → (∀ c ∈ closeWs, jsonWs c = true) →
        elemsFuel (x :: xs) ≤ fuel → delimOk rest →
        parseElems fuel (elemsText gap ind sepTail closeWs (x :: xs) rest) =
          some (x :: xs, rest)) ∧
      (∀ (f : String × JsonValue) (fs : List (String × JsonValue)) (ind : String)
          (colonTail sepTail closeWs rest : List Char),
        (∀ c ∈ ind.data, jsonWs c = true) →
        (∀ c ∈ colonTail, jsonWs c = true) →
        (∀ c ∈ sepTail, jsonWs c = true) → (∀ c ∈ closeWs, jsonWs c = true) →
        membersFuel (f :: fs) ≤ fuel → delimOk rest →
        parseMembers fuel (membersText gap ind colonTail sepTail closeWs (f :: fs) rest) =
          some (f :: fs, rest)) := by
  intro fuel
  induction fuel with
  | zero =>
    refine ⟨fun v ind rest _ hf _ => ?_, fun x xs ind s c rest _ _ _ hf _ => ?_,
      fun f fs ind ct s c rest _ _ _ _ hf _ => ?_⟩
    · exact absurd hf (by have := jsonFuel_pos v; omega)
    · exact absurd hf (by have := elemsFuel_pos x xs; omega)
    · exact absurd hf (by have := membersFuel_pos f fs; omega)
  | succ fuel ih =>
    obtain ⟨ihA, ihB, ihC⟩ := ih
    refine ⟨?_, ?_, ?_⟩
    · -- parseValue
      intro v ind rest hind hf hrest
      cases v with
      | null =>
        rw [serializeJSON]
        exact parseValue_step_null fuel rest
      | bool b =>
        cases b
        · rw [serializeJSON]
          exact parseValue_step_false fuel rest
        · rw [serializeJSON]
          exact parseValue_step_true fuel rest
      | num i =>
        rw [serializeJSON]
        show parseValue (fuel + 1) (intToChars i ++ rest) = some (.num i, rest)
        exact parseValue_step_num fuel i rest hrest
      | str s =>
        rw [serializeJSON]
        exact parseValue_step_str fuel s rest
      | arr xs =>
        cases xs with
        | nil =>
          rw [serializeJSON]
          exact parseValue_step_arr_nil fuel rest
        | cons x xs =>
          have hinner : ∀ c ∈ (ind ++ gap).data, jsonWs c = true :=
            appendWs_of ind gap hind hgap
          have hEf : elemsFuel (x :: xs) ≤ fuel := by
            rw [jsonFuel] at hf
            omega
          obtain ⟨c0, t0, hc0, hws0, hbr0, hbc0⟩ := serializeJSON_head gap (ind ++ gap) x
          rw [serializeJSON]
          by_cases hg : gap.isEmpty
          · rw [if_pos hg]
            have hsh : ("[" ++ joinSep ","
                  (serializeItems gap (ind ++ gap) (x :: xs)) ++ "]").data ++ rest
                = '[' :: elemsText gap (ind ++ gap) [] [] (x :: xs) rest := by
              rw [← elemsText_compact gap (ind ++ gap) rest xs x]
              show ('[' :: ((joinSep ","
                (serializeItems gap (ind ++ gap) (x :: xs))).data ++ [']'])) ++ rest = _
              simp [List.append_assoc]
            rw [hsh]
            obtain ⟨u, hu⟩ := elemsText_head gap (ind ++ gap) [] [] rest x xs
            rw [hu, hc0, List.cons_append]
            rw [show ('[' : Char) :: c0 :: (t0 ++ u)
              = '[' :: (([] : List Char) ++ (c0 :: (t0 ++ u))) from rfl]
            rw [parseValue_step_arr fuel [] c0 (t0 ++ u) (by simp) hws0 hbr0]
            rw [show c0 :: (t0 ++ u) = (serializeJSON gap (ind ++ gap) x).data ++ u from
              by rw [hc0, List.cons_append]]
            rw [← hu]
            rw [ihB x xs (ind ++ gap) [] [] rest hinner (by simp) (by simp) hEf hrest]
            rfl
          · rw [if_neg hg]
            have hsh : ("[\n" ++ joinSep ",\n"
                  ((serializeItems gap (ind ++ gap) (x :: xs)).map
                    (fun it => ind ++ gap ++ it)) ++ "\n" ++ ind ++ "]").data ++ rest
                = '[' :: (('\n' :: (ind ++ gap).data) ++
                    elemsText gap (ind ++ gap) ('\n' :: (ind ++ gap).data)
                      ('\n' :: ind.data) (x :: xs) rest) := by
              simp only [List.cons_append]
              rw [← elemsText_pretty gap (ind ++ gap) ind rest xs x]
              simp [data_append, data_lbrk_nl, data_nl, data_rbrk, List.append_assoc]
            rw [hsh]
            obtain ⟨u, hu⟩ := elemsText_head gap (ind ++ gap)
              ('\n' :: (ind ++ gap).data) ('\n' :: ind.data) rest x xs
            rw [hu, hc0, List.cons_append]
            show parseValue (fuel + 1)
              ('[' :: (('\n' :: (ind ++ gap).data) ++ (c0 :: (t0 ++ u)))) = _
            rw [parseValue_step_arr fuel ('\n' :: (ind ++ gap).data) c0 (t0 ++ u)
              (by intro c hc
                  rcases List.mem_cons.mp hc with rfl | hc2
                  · decide
                  · exact hinner c hc2)
              hws0 hbr0]
            rw [show c0 :: (t0 ++ u) = (serializeJSON gap (ind ++ gap) x).data ++ u from
              by rw [hc0, List.cons_append]]
            rw [← hu]
            rw [ihB x xs (ind ++ gap) ('\n' :: (ind ++ gap).data) ('\n' :: ind.data) rest
              hinner
              (by intro c hc
                  rcases List.mem_cons.mp hc with rfl | hc2
                  · decide
                  · exact hinner c hc2)
              (by intro c hc
                  rcases List.mem_cons.mp hc with rfl | hc2
                  · decide
                  · exact hind c hc2)
              hEf hrest]
            rfl
      | obj fs =>
        cases fs with
        | nil =>
          rw [serializeJSON]
          exact parseValue_step_obj_nil fuel rest
        | cons f fs =>
          have hinner : ∀ c ∈ (ind ++ gap).data, jsonWs c = true :=
            appendWs_of ind gap hind hgap
          have hMf : membersFuel (f :: fs) ≤ fuel := by
            rw [jsonFuel] at hf
            omega
          rw [serializeJSON]
          by_cases hg : gap.isEmpty
          · rw [if_pos hg]
            have hsh : ("\x7b" ++ joinSep ","
                  (serializeFields gap (ind ++ gap) (f :: fs)) ++ "\x7d").data ++ rest
                = '\x7b' :: membersText gap (ind ++ gap) [] [] [] (f :: fs) rest := by
              rw [← membersText_compact gap (ind ++ gap) hg rest fs f]
              show ('\x7b' :: ((joinSep ","
                (serializeFields gap (ind ++ gap) (f :: fs))).data ++ ['\x7d'])) ++ rest = _
              simp [List.append_assoc]
            rw [hsh]
            obtain ⟨u, hu⟩ := membersText_head gap (ind ++ gap) [] [] [] rest f fs
            rw [hu]
            rw [show ('\x7b' : Char) :: '"' :: u
              = '\x7b' :: (([] : List Char) ++ ('"' :: u)) from rfl]
            rw [parseValue_step_obj fuel [] '"' u (by simp) (by decide) (by decide)]
            rw [← hu]
            rw [ihC f fs (ind ++ gap) [] [] [] rest hinner (by simp) (by simp) (by simp)
              hMf hrest]
            rfl
          · rw [if_neg hg]
            have hsh : ("\x7b\n" ++ joinSep ",\n"
                  ((serializeFields gap (ind ++ gap) (f :: fs)).map
                    (fun it => ind ++ gap ++ it)) ++ "\n" ++ ind ++ "\x7d").data ++ rest
                = '\x7b' :: (('\n' :: (ind ++ gap).data) ++
                    membersText gap (ind ++ gap) [' '] ('\n' :: (ind ++ gap).data)
                      ('\n' :: ind.data) (f :: fs) rest) := by
              simp only [List.cons_append]
              rw [← membersText_pretty gap (ind ++ gap) ind
                (Bool.not_eq_true _ ▸ (by simpa using hg)) rest fs f]
              simp [data_append, data_lbrc_nl, data_nl, data_rbrc, List.append_assoc]
            rw [hsh]
            obtain ⟨u, hu⟩ := membersText_head gap (ind ++ gap) [' ']
              ('\n' :: (ind ++ gap).data) ('\n' :: ind.data) rest f fs
            rw [hu]
            show parseValue (fuel + 1)
              ('\x7b' :: (('\n' :: (ind ++ gap).data) ++ ('"' :: u))) = _
            rw [parseValue_step_obj fuel ('\n' :: (ind ++ gap).data) '"' u
              (by intro c hc
                  rcases List.mem_cons.mp hc with rfl | hc2
                  · decide
                  · exact hinner c hc2)
              (by decide) (by decide)]
            rw [← hu]
            rw [ihC f fs (ind ++ gap) [' '] ('\n' :: (ind ++ gap).data)
              ('\n' :: ind.data) rest hinner (by decide)
              (by intro c hc
                  rcases List.mem_cons.mp hc with rfl | hc2
                  · decide
                  · exact hinner c hc2)
              (by intro c hc
                  rcases List.mem_cons.mp hc with rfl | hc2
                  · decide
                  · exact hind c hc2)
              hMf hrest]
            rfl
    · -- parseElems
      intro x xs ind sepTail closeWs rest hind hsep hclose hf hrest
      cases xs with
      | nil =>
        have hFx : jsonFuel x ≤ fuel := by
          rw [elemsFuel] at hf
          omega
        rw [elemsText, parseElems,
          ihA x ind (closeWs ++ ']' :: rest) hind hFx
            (delimOk_closeWs closeWs hclose ']' (Or.inl rfl) rest)]
        simp [skipWs_append_ws closeWs hclose, skipWs_rbracket]
      | cons y ys =>
        have hm1 := Nat.le_max_left (jsonFuel x) (elemsFuel (y :: ys))
        have hm2 := Nat.le_max_right (jsonFuel x) (elemsFuel (y :: ys))
        have hFx : jsonFuel x ≤ fuel := by
          rw [elemsFuel] at hf
          omega
        have hFe : elemsFuel (y :: ys) ≤ fuel := by
          rw [elemsFuel] at hf
          omega
        rw [elemsText, parseElems,
          ihA x ind (',' :: (sepTail ++ elemsText gap ind sepTail closeWs (y :: ys) rest))
            hind hFx (delimOk_cons_of ',' _ (Or.inl rfl))]
        simp only [skipWs_comma]
        show (parseElems fuel (sepTail ++
            elemsText gap ind sepTail closeWs (y :: ys) rest)).map
            (fun t => (x :: t.1, t.2)) = some (x :: y :: ys, rest)
        rw [parseElems_ws sepTail hsep,
          ihB y ys ind sepTail closeWs rest hind hsep hclose hFe hrest]
        rfl
    · -- parseMembers
      intro f fs ind colonTail sepTail closeWs rest hind hcolon hsep hclose hf hrest
      obtain ⟨k, v⟩ := f
      cases fs with
      | nil =>
        have hFv : jsonFuel v ≤ fuel := by
          rw [membersFuel] at hf
          have hf2 : 1 + jsonFuel v ≤ fuel + 1 := hf
          omega
        rw [membersText]
        have hq : (quoteJson k).data ++ (':' :: (colonTail ++
              ((serializeJSON gap ind v).data ++ (closeWs ++ '\x7d' :: rest))))
            = '"' :: (k.data.flatMap escapeChar ++ ('"' :: (':' :: (colonTail ++
                ((serializeJSON gap ind v).data ++ (closeWs ++ '\x7d' :: rest)))))) := by
          show ('"' :: (k.data.flatMap escapeChar ++ ['"'])) ++ _ = _
          simp [List.append_assoc]
        rw [hq, parseMembers, skipWs_quote]
        simp only [parseStringBody_escape k.data, skipWs_colon]
        rw [parseValue_ws colonTail hcolon,
          ihA v ind (closeWs ++ '\x7d' :: rest) hind hFv
            (delimOk_closeWs closeWs hclose '\x7d' (Or.inr rfl) rest)]
        simp [skipWs_append_ws closeWs hclose, skipWs_rbrace]
      | cons f2 fs2 =>
        have hm1 := Nat.le_max_left (jsonFuel v) (membersFuel (f2 :: fs2))
        have hm2 := Nat.le_max_right (jsonFuel v) (membersFuel (f2 :: fs2))
        have hFv : jsonFuel v ≤ fuel := by
          rw [membersFuel] at hf
          have hf2 : 1 + max (jsonFuel v) (membersFuel (f2 :: fs2)) ≤ fuel + 1 := hf
          omega
        have hFm : membersFuel (f2 :: fs2) ≤ fuel := by
          rw [membersFuel] at hf
          have hf2 : 1 + max (jsonFuel v) (membersFuel (f2 :: fs2)) ≤ fuel + 1 := hf
          omega
        rw [membersText]
        have hq : (quoteJson k).data ++ (':' :: (colonTail ++
              ((serializeJSON gap ind v).data ++ (',' :: (sepTail ++
                membersText gap ind colonTail sepTail closeWs (f2 :: fs2) rest)))))
            = '"' :: (k.data.flatMap escapeChar ++ ('"' :: (':' :: (colonTail ++
                ((serializeJSON gap ind v).data ++ (',' :: (sepTail ++
                  membersText gap ind colonTail sepTail closeWs (f2 :: fs2) rest))))))) := by
          show ('"' :: (k.data.flatMap escapeChar ++ ['"'])) ++ _ = _
          simp [List.append_assoc]
        rw [hq, parseMembers, skipWs_quote]
        simp only [parseStringBody_escape k.data, skipWs_colon]
        rw [parseValue_ws colonTail hcolon,
          ihA v ind (',' :: (sepTail ++
              membersText gap ind colonTail sepTail closeWs (f2 :: fs2) rest))
            hind hFv (delimOk_cons_of ',' _ (Or.inl rfl))]
        simp only [skipWs_comma]
        show (parseMembers fuel (sepTail ++
            membersText gap ind colonTail sepTail closeWs (f2 :: fs2) rest)).map
            (fun t => ((String.mk k.data, v) :: t.1, t.2)) = some ((k, v) :: f2 :: fs2, rest)
        rw [parseMembers_ws sepTail hsep,
          ihC f2 fs2 ind colonTail sepTail closeWs rest hind hcolon hsep hclose hFm hrest]
        rfl

/-- Parsing the pretty-printed serialization of any value recovers the value. -/
theorem parseJson_stringify (v : JsonValue) (n : Nat) :
    parseJson (jsonStringify v n) = some v := by
  unfold parseJson
  have hgap : ∀ c ∈ (String.mk (List.replicate (min n 10) ' ')).data, jsonWs c = true := by
    intro c hc
    rw [List.eq_of_mem_replicate hc]
    decide
  have hA := (parse_master (String.mk (List.replicate (min n 10) ' ')) hgap
    ((serializeJSON (String.mk (List.replicate (min n 10) ' ')) "" v).length + 1)).1
  have hf : jsonFuel v ≤
      (serializeJSON (String.mk (List.replicate (min n 10) ' ')) "" v).length + 1 := by
    have hb := jsonFuel_le_length (String.mk (List.replicate (min n 10) ' ')) "" v
    omega
  have hr := hA v "" [] (by simp) hf (Or.inl rfl)
  rw [List.append_nil] at hr
  show (match parseValue
      ((serializeJSON (String.mk (List.replicate (min n 10) ' ')) "" v).length + 1)
      (serializeJSON (String.mk (List.replicate (min n 10) ' ')) "" v).data with
    | some (w, r) => if skipWs r = [] then some w else none
    | none => none) = some v
  rw [hr]
  rfl

theorem strip_recovers (t : LoggerType) (v : JsonValue) (n : Nat) :
    stripLogOutput t ("\n" ++ (plainPrefixOf (jsToUpperCase (typeName t)) ++ " " ++
      replaceAllStr (jsonStringify v n) "\n" ("\n" ++ plainPrefixOf "" ++ " "))) =
      jsonStringify v n := by
  unfold stripLogOutput
  have hw : ∀ X : String,
      ("\n" ++ (plainPrefixOf (jsToUpperCase (typeName t)) ++ " " ++ X)).data
        = ("\n" ++ plainPrefixOf (jsToUpperCase (typeName t)) ++ " ").data ++ X.data := by
    intro X
    simp [data_append, List.append_assoc]
  rw [hw]
  rw [show (("\n" ++ plainPrefixOf (jsToUpperCase (typeName t)) ++ " ").length)
    = (("\n" ++ plainPrefixOf (jsToUpperCase (typeName t)) ++ " ").data).length from rfl]
  rw [List.drop_left]
  rw [show (plainPrefixOf "" ++ " ").data = (plainPrefixOf "").data ++ [' '] from rfl]
  rw [replaceAllStr_nl_data (jsonStringify v n) (plainPrefixOf "") (by decide)]
  rw [stripCont_flatMap]

/-- C9: for every JSON value logged with `useColor = false` (standard prefix,
any `onLog` configuration, any indent width), removing the injected prefix
segments from the string `logJSON` hands to the sink and parsing the remainder
as JSON recovers exactly the original value. -/
theorem c9_roundtrip (b : Bool) (t : LoggerType) (v : JsonValue) (n : Nat) :
    (writesOf ((Logger.mk false b none).logJSON t v n).1).map
      (fun s => parseJson (stripLogOutput t s)) = [some v] := by
  have hp : (Logger.mk false b none).getPrefixForType t none none
      = .ok (plainPrefixOf (jsToUpperCase (typeName t))) :=
    getPrefix_ok (Logger.mk false b none) t none none rfl (typeNameUpper_le t)
  have hq : (Logger.mk false b none).getPrefixForType t none (some "")
      = .ok (plainPrefixOf "") :=
    getPrefix_ok (Logger.mk false b none) t none (some "") rfl
      (by show (jsToUpperCase "").length ≤ largestLoggerTypeLength; decide)
  rw [logJSON_eq (Logger.mk false b none) t v n _ _ hp hq]
  show (writesOf ((if b then [Event.onLogCall t (stringifyCompact v)] else []) ++
      [Event.write ("\n" ++ (plainPrefixOf (jsToUpperCase (typeName t)) ++ " " ++
        replaceAllStr (jsonStringify v n) "\n" ("\n" ++ plainPrefixOf "" ++ " ")))])).map
      (fun s => parseJson (stripLogOutput t s)) = [some v]
  rw [writesOf_shape]
  rw [List.map_cons, List.map_nil]
  rw [strip_recovers t v n, parseJson_stringify v n]
